import Mathlib

/-!
Verification of the GraphNotes vault indexer and search engine
(`src-tauri/src/commands/files.rs` and `src-tauri/src/commands/search.rs`).

The Rust code is shallowly embedded: the filesystem is a tree value
(`Node`), directory walking (the `walkdir` crate with hidden-name
filtering applied to every yielded entry, the walk root included) is an
explicit event list, and the `regex` crate is modelled by a derivative
based matcher over a syntax fragment (literals, escapes, groups,
alternation, repetition, any-char).  Text is treated as its character
sequence; the sample vault contents are ASCII, where character offsets
and byte offsets coincide, and carriage-return normalisation of line
endings is not modelled.  Matching is leftmost (earliest start wins),
as in the `find` method used by the code.
-/

namespace GraphNotes

/-! ## String helpers (structural, so concrete runs reduce in the kernel) -/

/-- Rust `name.starts_with` applied to the hidden-file marker character. -/
def headIsDot (s : String) : Bool :=
  match s.data with
  | [] => false
  | c :: _ => c = '.'

/-- ASCII lowercasing of one character, modelling Rust `to_lowercase` on
the ASCII names this development uses. -/
def lowerChar (c : Char) : Char :=
  if 65 ≤ c.toNat ∧ c.toNat ≤ 90 then Char.ofNat (c.toNat + 32) else c

/-- Lowercased character sequence of a string. -/
def lowerData (s : String) : List Char := s.data.map lowerChar

/-- Byte-wise lexicographic comparison of character lists, modelling Rust
`String` ordering on ASCII text. -/
def lexOrd : List Char → List Char → Ordering
  | [], [] => Ordering.eq
  | [], _ :: _ => Ordering.lt
  | _ :: _, [] => Ordering.gt
  | a :: as, b :: bs =>
    if a.toNat < b.toNat then Ordering.lt
    else if b.toNat < a.toNat then Ordering.gt
    else lexOrd as bs

/-- Join root-relative path components with the canonical separator.  The
walk root itself has no components and yields the empty string, matching
stripping the root from itself in the Rust code. -/
def joinPath : List String → String
  | [] => ""
  | [x] => x
  | x :: xs => x ++ "/" ++ joinPath xs

/-- Splits on the newline character, keeping interior empty lines. -/
def splitNL : List Char → List (List Char)
  | [] => [[]]
  | c :: cs =>
    if c = '\n' then [] :: splitNL cs
    else
      match splitNL cs with
      | [] => [[c]]
      | l :: ls => (c :: l) :: ls

/-- Drops the final empty fragment, so a trailing newline does not
produce a spurious empty line, as with Rust `str::lines`. -/
def dropFinalEmpty : List (List Char) → List (List Char)
  | [] => []
  | [l] => if l.isEmpty then [] else [l]
  | l :: ls => l :: dropFinalEmpty ls

/-- Rust `content.lines()` (carriage returns not modelled). -/
def rustLines (s : String) : List String :=
  (dropFinalEmpty (splitNL s.data)).map (fun l => String.mk l)

/-- Rust `Path::extension` applied to a file name: the portion after the
last dot, where a dot leading the whole name does not count as a
separator and a dotless name has no extension. -/
def extAux : List Char → Option (List Char)
  | [] => none
  | c :: cs =>
    match extAux cs with
    | some e => some e
    | none => if c = '.' then some cs else none

def extOf (name : String) : Option String :=
  match name.data with
  | [] => none
  | _ :: rest => (extAux rest).map (fun l => String.mk l)

/-- The extension allow-list test used by all markdown-restricted
operations: keep exactly the files whose extension is `md` or
`markdown`. -/
def isMdName (name : String) : Bool :=
  match extOf name with
  | some e => e = "md" || e = "markdown"
  | none => false

/-! ## Regular expressions: syntax, derivative matcher, find -/

/-- Regular-expression abstract syntax for the fragment modelled. -/
inductive RE where
  | emp : RE
  | eps : RE
  | chr : Char → RE
  | dot : RE
  | cat : RE → RE → RE
  | alt : RE → RE → RE
  | star : RE → RE
deriving DecidableEq

def nullable : RE → Bool
  | RE.emp => false
  | RE.eps => true
  | RE.chr _ => false
  | RE.dot => false
  | RE.cat a b => nullable a && nullable b
  | RE.alt a b => nullable a || nullable b
  | RE.star _ => true

def deriv : RE → Char → RE
  | RE.emp, _ => RE.emp
  | RE.eps, _ => RE.emp
  | RE.chr c, x => if x = c then RE.eps else RE.emp
  | RE.dot, _ => RE.eps
  | RE.cat a b, x =>
    if nullable a then RE.alt (RE.cat (deriv a x) b) (deriv b x)
    else RE.cat (deriv a x) b
  | RE.alt a b, x => RE.alt (deriv a x) (deriv b x)
  | RE.star a, x => RE.cat (deriv a x) (RE.star a)

/-- End index (absolute, starting from `i`) of the longest prefix of
`cs` matched by `r`, if any prefix matches at all. -/
def lastNullable (r : RE) : List Char → Nat → Option Nat
  | [], i => if nullable r then some i else none
  | c :: cs, i =>
    match lastNullable (deriv r c) cs (i + 1) with
    | some e => some e
    | none => if nullable r then some i else none

/-- Scans start positions left to right; the first position where some
prefix matches wins, giving leftmost `find` semantics. -/
def reFindAux (r : RE) : List Char → Nat → Option (Nat × Nat)
  | cs, i =>
    match lastNullable r cs i with
    | some e => some (i, e)
    | none =>
      match cs with
      | [] => none
      | _ :: rest => reFindAux r rest (i + 1)

/-- Model of `Regex::find` on one line, returning start and end offsets
of the first match. -/
def reFind (r : RE) (cs : List Char) : Option (Nat × Nat) :=
  reFindAux r cs 0

/-! ## Pattern parser and the two-stage compile of `grep_search` -/

/-- The metacharacters escaped by `regex::escape`. -/
def isMetaCh (c : Char) : Bool :=
  c = '\\' || c = '.' || c = '+' || c = '*' || c = '?' || c = '(' ||
  c = ')' || c = '|' || c = '[' || c = ']' || c = '{' || c = '}' ||
  c = '^' || c = '$' || c = '#' || c = '&' || c = '-' || c = '~'

/-- Characters that cannot begin an atom of the modelled syntax. -/
def isAtomBlock (c : Char) : Bool :=
  c = ')' || c = '|' || c = '*' || c = '+' || c = '?'

def atomStart : List Char → Bool
  | [] => false
  | '\\' :: rest => !rest.isEmpty
  | c :: _ => !isAtomBlock c

mutual

def pAlt (fuel : Nat) (cs : List Char) : Option (RE × List Char) :=
  match fuel with
  | 0 => none
  | f + 1 =>
    match pCat f cs with
    | none => none
    | some (r, rest) =>
      match rest with
      | '|' :: rest2 =>
        match pAlt f rest2 with
        | some (r2, rest3) => some (RE.alt r r2, rest3)
        | none => none
      | _ => some (r, rest)

def pCat (fuel : Nat) (cs : List Char) : Option (RE × List Char) :=
  match fuel with
  | 0 => none
  | f + 1 =>
    if atomStart cs then
      match pRep f cs with
      | none => none
      | some (r, rest) =>
        match pCat f rest with
        | some (r2, rest2) => some (RE.cat r r2, rest2)
        | none => none
    else some (RE.eps, cs)

def pRep (fuel : Nat) (cs : List Char) : Option (RE × List Char) :=
  match fuel with
  | 0 => none
  | f + 1 =>
    match pAtom f cs with
    | none => none
    | some (r, rest) =>
      match rest with
      | '*' :: rest2 => some (RE.star r, rest2)
      | '+' :: rest2 => some (RE.cat r (RE.star r), rest2)
      | '?' :: rest2 => some (RE.alt r RE.eps, rest2)
      | _ => some (r, rest)

def pAtom (fuel : Nat) (cs : List Char) : Option (RE × List Char) :=
  match fuel with
  | 0 => none
  | f + 1 =>
    match cs with
    | [] => none
    | '(' :: rest =>
      match pAlt f rest with
      | some (r, ')' :: rest2) => some (r, rest2)
      | _ => none
    | '\\' :: c :: rest => some (RE.chr c, rest)
    | '.' :: rest => some (RE.dot, rest)
    | c :: rest => if isAtomBlock c then none else some (RE.chr c, rest)

end

/-- Model of `Regex::new`: the whole pattern must be consumed. -/
def parseRegex (s : String) : Option RE :=
  match pAlt (2 * s.data.length + 4) s.data with
  | some (r, []) => some r
  | _ => none

/-- `regex::escape` on a character list. -/
def escList : List Char → List Char
  | [] => []
  | c :: cs => if isMetaCh c then '\\' :: c :: escList cs else c :: escList cs

/-- Model of `regex::escape`. -/
def escapeRegex (s : String) : String := String.mk (escList s.data)

/-- The literal regex recognising exactly one character sequence. -/
def litRE : List Char → RE
  | [] => RE.eps
  | c :: cs => RE.cat (RE.chr c) (litRE cs)

/-- `regex::escape` of a single character. -/
def escChar (c : Char) : List Char :=
  if isMetaCh c then ['\\', c] else [c]

/-- Whole-word acceptance by iterated derivatives. -/
def acceptRE (r : RE) (cs : List Char) : Bool :=
  nullable (cs.foldl deriv r)

/-- The escaped form of a list never leads with a repetition operator,
so parsing it never consumes a stray postfix. -/
def noLeadRepOp : List Char → Prop
  | [] => True
  | c :: _ => c ≠ '*' ∧ c ≠ '+' ∧ c ≠ '?'

/-- Modelled from the spec: a plain-substring occurrence of `pat` in
`cs` starting at position `j`. -/
def substrAt (pat cs : List Char) (j : Nat) : Prop :=
  ∃ t, cs.drop j = pat ++ t

/-- The two-stage pattern compile of `grep_search`: try the pattern as a
regex, else compile its metacharacter-escaped literal form. -/
def compilePattern (p : String) : Option RE :=
  match parseRegex p with
  | some r => some r
  | none => parseRegex (escapeRegex p)

/-! ## Filesystem model -/

mutual

/-- One filesystem node.  `readable` records whether reading it (file
contents, or directory listing) succeeds; `is_dir` status itself is
always observable, as with `stat` on an unreadable directory. -/
inductive Node where
  | file (readable : Bool) (content : String) : Node
  | dir (readable : Bool) (entries : Entries) : Node

/-- Named directory entries in on-disk enumeration order. -/
inductive Entries where
  | nil : Entries
  | cons (name : String) (node : Node) (rest : Entries) : Entries

end

def Node.isDir : Node → Bool
  | Node.file _ _ => false
  | Node.dir _ _ => true

def entriesToList : Entries → List (String × Node)
  | Entries.nil => []
  | Entries.cons nm n rest => (nm, n) :: entriesToList rest

/-! ## The walk (`WalkDir` with a name filter on every yielded entry) -/

/-- One event of the filtered recursive walk: a successfully yielded
entry (name, root-relative components, node), or an error event, as
produced when reading an unreadable directory's contents fails. -/
inductive WEvent where
  | ok (name : String) (rel : List String) (node : Node) : WEvent
  | err : WEvent

mutual

/-- Depth-first walk from a node.  The filter is applied to every
entry, the walk root itself included; a rejected directory's contents
are skipped.  An unreadable directory is yielded, then contributes one
error event in place of its contents. -/
def walkNode (filt : String → Bool) (name : String) (n : Node) (rel : List String) : List WEvent :=
  if filt name then
    WEvent.ok name rel n ::
      (match n with
       | Node.file _ _ => []
       | Node.dir true es => walkEntries filt es rel
       | Node.dir false _ => [WEvent.err])
  else []

def walkEntries (filt : String → Bool) (es : Entries) (rel : List String) : List WEvent :=
  match es with
  | Entries.nil => []
  | Entries.cons nm c rest => walkNode filt nm c (rel ++ [nm]) ++ walkEntries filt rest rel

end

/-- The filter of `grep_search`: skip every dot-led name. -/
def grepFilt (name : String) : Bool := !headIsDot name

/-- The filter of `list_markdown_files`: skip dot-led names except the
reserved metadata directory. -/
def gnFilt (name : String) : Bool := !headIsDot name || name == ".graphnotes"

/-! ## FileEntry and comparators -/

inductive FileEntry where
  | mk (name : String) (path : String) (is_directory : Bool)
       (children : Option (List FileEntry)) : FileEntry

def FileEntry.name : FileEntry → String
  | FileEntry.mk n _ _ _ => n

def FileEntry.path : FileEntry → String
  | FileEntry.mk _ p _ _ => p

def FileEntry.is_directory : FileEntry → Bool
  | FileEntry.mk _ _ d _ => d

def FileEntry.children : FileEntry → Option (List FileEntry)
  | FileEntry.mk _ _ _ c => c

/-- The per-level comparator of `list_directory` and `get_file_tree`:
directories before files, then case-insensitive name order. -/
def feCmp (a b : FileEntry) : Ordering :=
  match a.is_directory, b.is_directory with
  | true, false => Ordering.lt
  | false, true => Ordering.gt
  | _, _ => lexOrd (lowerData a.name) (lowerData b.name)

def feLe (a b : FileEntry) : Bool := !(feCmp a b == Ordering.gt)

def feR (a b : FileEntry) : Prop := feLe a b = true

instance : DecidableRel feR := fun a b => instDecidableEqBool (feLe a b) true

/-- The flat comparator of `list_markdown_files`: case-insensitive
order on the whole relative path. -/
def pathLe (a b : FileEntry) : Bool :=
  !(lexOrd (lowerData a.path) (lowerData b.path) == Ordering.gt)

def pathR (a b : FileEntry) : Prop := pathLe a b = true

instance : DecidableRel pathR := fun a b => instDecidableEqBool (pathLe a b) true

/-! ## SearchEngine: `grep_search` -/

structure GrepMatch where
  filepath : String
  line_number : Nat
  line_content : String
  match_start : Nat
  match_end : Nat
deriving DecidableEq

/-- Per-file line scan: first match per line, 1-based line numbers,
with the cap checked between lines. -/
def scanLines (re : RE) (fp : String) (mx : Nat) : List String → Nat → List GrepMatch → List GrepMatch
  | [], _, acc => acc
  | l :: ls, i, acc =>
    if mx ≤ acc.length then acc
    else
      match reFind re l.data with
      | some (s, e) => scanLines re fp mx ls (i + 1) (acc ++ [⟨fp, i + 1, l, s, e⟩])
      | none => scanLines re fp mx ls (i + 1) acc

/-- Event loop of `grep_search`: the cap is checked between entries,
error events and non-markdown or unreadable files are skipped. -/
def scanEvents (re : RE) (mx : Nat) : List WEvent → List GrepMatch → List GrepMatch
  | [], acc => acc
  | ev :: evs, acc =>
    if mx ≤ acc.length then acc
    else
      match ev with
      | WEvent.err => scanEvents re mx evs acc
      | WEvent.ok nm rel n =>
        match n with
        | Node.dir _ _ => scanEvents re mx evs acc
        | Node.file rd ct =>
          if isMdName nm then
            if rd then scanEvents re mx evs (scanLines re (joinPath rel) mx (rustLines ct) 0 acc)
            else scanEvents re mx evs acc
          else scanEvents re mx evs acc

/-- `grep_search`.  The root path is modelled by its base name (used by
the walk filter) together with the node it resolves to, `none` when the
path does not exist. -/
def grepSearch (rootName : String) (root : Option Node) (pattern : String)
    (maxResults : Option Nat) : Except String (List GrepMatch) :=
  match root with
  | none => Except.error ("Directory does not exist: " ++ rootName)
  | some n =>
    match compilePattern pattern with
    | none => Except.error "Invalid pattern"
    | some re =>
      Except.ok (scanEvents re (maxResults.getD 100) (walkNode grepFilt rootName n []) [])

/-! ## FlatLister: `list_directory` and `list_markdown_files` -/

/-- `list_directory`: one level, no extension filter, hidden names
skipped except the reserved one, full (not root-relative) paths,
sorted directories-first then case-insensitively by name. -/
def listDirectory (rootPath : String) (root : Option Node) : Except String (List FileEntry) :=
  match root with
  | none => Except.error ("Directory does not exist: " ++ rootPath)
  | some (Node.file _ _) => Except.error ("Path is not a directory: " ++ rootPath)
  | some (Node.dir false _) => Except.error "Failed to read directory"
  | some (Node.dir true es) =>
    Except.ok (List.insertionSort feR ((entriesToList es).filterMap (fun p =>
      if headIsDot p.1 && !(p.1 == ".graphnotes") then none
      else some (FileEntry.mk p.1 (rootPath ++ "/" ++ p.1) p.2.isDir none))))

/-- Collects markdown files from the walk events; any error event is a
hard error, as the walk errors are propagated in `list_markdown_files`. -/
def collectMd : List WEvent → Except String (List FileEntry)
  | [] => Except.ok []
  | WEvent.err :: _ => Except.error "Failed to read entry"
  | WEvent.ok nm rel n :: evs =>
    match n with
    | Node.dir _ _ => collectMd evs
    | Node.file _ _ =>
      if isMdName nm then
        (collectMd evs).map (fun es => FileEntry.mk nm (joinPath rel) false none :: es)
      else collectMd evs

/-- `list_markdown_files`: recursive, files only, markdown only,
root-relative paths, sorted case-insensitively by path. -/
def listMarkdownFiles (rootName : String) (root : Option Node) : Except String (List FileEntry) :=
  match root with
  | none => Except.error ("Directory does not exist: " ++ rootName)
  | some n => (collectMd (walkNode gnFilt rootName n [])).map (List.insertionSort pathR)

/-! ## TreeBuilder: `get_file_tree` -/

mutual

/-- The recursive `build_tree` helper: reads a directory (failing on a
non-directory or unreadable node), filters and recurses, then sorts the
level. -/
def buildTree (n : Node) (rel : List String) : Except String (List FileEntry) :=
  match n with
  | Node.file _ _ => Except.error "Failed to read directory"
  | Node.dir false _ => Except.error "Failed to read directory"
  | Node.dir true es => (buildList es rel).map (List.insertionSort feR)

def buildList (es : Entries) (rel : List String) : Except String (List FileEntry) :=
  match es with
  | Entries.nil => Except.ok []
  | Entries.cons nm c rest =>
    if headIsDot nm && !(nm == ".graphnotes") then buildList rest rel
    else if !c.isDir && !isMdName nm then buildList rest rel
    else
      match (if c.isDir then (buildTree c (rel ++ [nm])).map Option.some
             else Except.ok Option.none) with
      | Except.error e => Except.error e
      | Except.ok children =>
        match buildList rest rel with
        | Except.error e => Except.error e
        | Except.ok others =>
          Except.ok (FileEntry.mk nm (joinPath (rel ++ [nm])) c.isDir children :: others)

end

/-- `get_file_tree`: existence is checked up front, then the recursive
build runs from the root with root-relative paths. -/
def getFileTree (rootPath : String) (root : Option Node) : Except String (List FileEntry) :=
  match root with
  | none => Except.error ("Directory does not exist: " ++ rootPath)
  | some n => buildTree n []

/-! ## Auxiliary predicates on filesystem values -/

mutual

/-- Some directory in the subtree (the node included) is unreadable. -/
def containsUnreadableDir : Node → Bool
  | Node.file _ _ => false
  | Node.dir rd es => !rd || entriesContainUnreadable es

def entriesContainUnreadable : Entries → Bool
  | Entries.nil => false
  | Entries.cons _ c rest => containsUnreadableDir c || entriesContainUnreadable rest

end

mutual

/-- Some directory reachable through admitted names (the tree filter:
dot-led names other than the reserved one are skipped) is unreadable. -/
def reachUnreadable : Node → Bool
  | Node.file _ _ => false
  | Node.dir rd es => !rd || entriesReachUnreadable es

def entriesReachUnreadable : Entries → Bool
  | Entries.nil => false
  | Entries.cons nm c rest =>
    (if headIsDot nm && !(nm == ".graphnotes") then false else reachUnreadable c) ||
      entriesReachUnreadable rest

end

/-! ## Specification-level predicates -/

/-- What every emitted match provably is: its file path joins walk
components that all passed the filter, its offsets are the first match
of its line, and its line number is 1-based. -/
def MatchProv (filt : String → Bool) (re : RE) (m : GrepMatch) : Prop :=
  (∃ rel : List String, m.filepath = joinPath rel ∧ ∀ c ∈ rel, filt c = true) ∧
  reFind re m.line_content.data = some (m.match_start, m.match_end) ∧
  1 ≤ m.line_number

/-- The order the spec claims at each level: directories precede files,
and names of entries of equal kind are case-insensitively
non-decreasing. -/
def claimOrd (a b : FileEntry) : Prop :=
  (FileEntry.is_directory b = true → FileEntry.is_directory a = true) ∧
  (FileEntry.is_directory a = FileEntry.is_directory b →
    lexOrd (lowerData (FileEntry.name a)) (lowerData (FileEntry.name b)) ≠ Ordering.gt)

/-- Every level of the forest is pairwise in `claimOrd`, recursively. -/
inductive SortedForest : List FileEntry → Prop where
  | mk : ∀ l : List FileEntry, List.Pairwise claimOrd l →
      (∀ fe ∈ l, ∀ cs, FileEntry.children fe = some cs → SortedForest cs) →
      SortedForest l

/-- Every name in the forest is either not dot-led or is the reserved
metadata name, recursively. -/
inductive OkNamesForest : List FileEntry → Prop where
  | mk : ∀ l : List FileEntry,
      (∀ fe ∈ l, headIsDot (FileEntry.name fe) = false ∨ FileEntry.name fe = ".graphnotes") →
      (∀ fe ∈ l, ∀ cs, FileEntry.children fe = some cs → OkNamesForest cs) →
      OkNamesForest l

/-- Paths in the forest are the root-relative components joined by the
canonical separator: an entry below components `rel` has path
`joinPath (rel ++ [name])`, and its children sit below
`rel ++ [name]`. -/
inductive PathsFrom : List String → List FileEntry → Prop where
  | mk : ∀ (rel : List String) (l : List FileEntry),
      (∀ fe ∈ l, FileEntry.path fe = joinPath (rel ++ [FileEntry.name fe])) →
      (∀ fe ∈ l, ∀ cs, FileEntry.children fe = some cs →
        PathsFrom (rel ++ [FileEntry.name fe]) cs) →
      PathsFrom rel l

/-! ## Concrete vaults used by scenarios, counterexamples and
witnesses -/

/-- Vault of the search scenario: `a.md` with `hello world` and
`sub/b.md` with `say hello`. -/
def fs9node : Node :=
  Node.dir true (Entries.cons "a.md" (Node.file true "hello world")
    (Entries.cons "sub" (Node.dir true
      (Entries.cons "b.md" (Node.file true "say hello") Entries.nil)) Entries.nil))

/-- Vault with one note containing the literal text `a(b`. -/
def fs3node : Node :=
  Node.dir true (Entries.cons "n.md" (Node.file true "xa(b") Entries.nil)

/-- Vault with one single-character note. -/
def fs4node : Node :=
  Node.dir true (Entries.cons "e.md" (Node.file true "x") Entries.nil)

/-- A root path that resolves to a plain file. -/
def f5node : Node := Node.file true "hello"

/-- Vault with one note, used under hidden-named roots. -/
def fshNode : Node :=
  Node.dir true (Entries.cons "x.md" (Node.file true "hello") Entries.nil)

/-- Vault whose only unreadable directory hides behind a dot-led
name. -/
def fs2hidden : Node :=
  Node.dir true (Entries.cons ".h" (Node.dir false Entries.nil) Entries.nil)

/-- Vault with a visible unreadable subdirectory. -/
def fs2visible : Node :=
  Node.dir true (Entries.cons "sub" (Node.dir false Entries.nil) Entries.nil)

/-- Vault with a real note and a `.git` directory holding a note with
the same text. -/
def fs8git : Node :=
  Node.dir true (Entries.cons "a.md" (Node.file true "alpha")
    (Entries.cons ".git" (Node.dir true
      (Entries.cons "notes.md" (Node.file true "alpha") Entries.nil)) Entries.nil))

/-- Vault with a `.graphnotes` metadata directory holding a note, plus
a top-level note. -/
def fs8gn : Node :=
  Node.dir true (Entries.cons ".graphnotes" (Node.dir true
      (Entries.cons "x.md" (Node.file true "hi") Entries.nil))
    (Entries.cons "b.md" (Node.file true "hi") Entries.nil))

/-- Vault for the C6 correction: one note under the root. -/
def fs6node : Node :=
  Node.dir true (Entries.cons "a.md" (Node.file true "x") Entries.nil)

/-- Mixed-kind, mixed-case vault exercising the sort order. -/
def fsSortNode : Node :=
  Node.dir true (Entries.cons "beta.md" (Node.file true "")
    (Entries.cons "Zeta" (Node.dir true Entries.nil)
    (Entries.cons "alpha" (Node.dir true Entries.nil)
    (Entries.cons "Gamma.md" (Node.file true "") Entries.nil))))

/-! ## Matcher lemmas: offsets returned by `find` are well formed and
leftmost -/

theorem lastNullable_bounds : ∀ (cs : List Char) (r : RE) (i e : Nat),
    lastNullable r cs i = some e → i ≤ e ∧ e ≤ i + cs.length := by
  intro cs
  induction cs with
  | nil =>
    intro r i e h
    by_cases hn : nullable r = true
    · simp only [lastNullable, hn, if_true] at h
      cases h
      omega
    · simp only [lastNullable, hn, Bool.false_eq_true, if_false] at h
      cases h
  | cons c cs ih =>
    intro r i e h
    simp only [lastNullable] at h
    cases hrec : lastNullable (deriv r c) cs (i + 1) with
    | some e2 =>
      rw [hrec] at h
      have hb := ih (deriv r c) (i + 1) e2 hrec
      cases h
      simp only [List.length_cons]
      omega
    | none =>
      rw [hrec] at h
      by_cases hn : nullable r = true
      · simp only [hn, if_true] at h
        cases h
        simp only [List.length_cons]
        omega
      · simp only [hn, Bool.false_eq_true, if_false] at h
        cases h

theorem reFindAux_bounds : ∀ (cs : List Char) (r : RE) (i s e : Nat),
    reFindAux r cs i = some (s, e) → i ≤ s ∧ s ≤ e ∧ e ≤ i + cs.length := by
  intro cs
  induction cs with
  | nil =>
    intro r i s e h
    simp only [reFindAux] at h
    cases hn : lastNullable r [] i with
    | some e2 =>
      rw [hn] at h
      have hb := lastNullable_bounds [] r i e2 hn
      cases h
      simp only [List.length_nil] at hb ⊢
      omega
    | none => rw [hn] at h; cases h
  | cons c cs ih =>
    intro r i s e h
    simp only [reFindAux] at h
    cases hn : lastNullable r (c :: cs) i with
    | some e2 =>
      rw [hn] at h
      have hb := lastNullable_bounds (c :: cs) r i e2 hn
      cases h
      omega
    | none =>
      rw [hn] at h
      have hb := ih r (i + 1) s e h
      simp only [List.length_cons]
      omega

/-- The offsets of a found match are ordered and bounded by the text
length. -/
theorem reFind_bounds (r : RE) (cs : List Char) (s e : Nat)
    (h : reFind r cs = some (s, e)) : s ≤ e ∧ e ≤ cs.length := by
  have hb := reFindAux_bounds cs r 0 s e h
  omega

theorem reFindAux_leftmost : ∀ (cs : List Char) (r : RE) (i s e : Nat),
    reFindAux r cs i = some (s, e) →
    ∀ j, i ≤ j → j < s → lastNullable r (cs.drop (j - i)) j = none := by
  intro cs
  induction cs with
  | nil =>
    intro r i s e h j hij hjs
    simp only [reFindAux] at h
    cases hn : lastNullable r [] i with
    | some e2 => rw [hn] at h; cases h; omega
    | none => rw [hn] at h; cases h
  | cons c cs ih =>
    intro r i s e h j hij hjs
    simp only [reFindAux] at h
    cases hn : lastNullable r (c :: cs) i with
    | some e2 => rw [hn] at h; cases h; omega
    | none =>
      rw [hn] at h
      rcases Nat.eq_or_lt_of_le hij with heq | hlt
      · subst heq
        simpa using hn
      · have hji : j - i = (j - (i + 1)) + 1 := by omega
        rw [hji]
        simpa using ih r (i + 1) s e h j hlt hjs

/-- `find` is leftmost: no prefix of the text dropped at an earlier
position matches. -/
theorem reFind_leftmost (r : RE) (cs : List Char) (s e : Nat)
    (h : reFind r cs = some (s, e)) :
    ∀ j, j < s → lastNullable r (cs.drop j) j = none := by
  intro j hj
  have := reFindAux_leftmost cs r 0 s e h j (Nat.zero_le j) hj
  simpa using this

/-! ## Cap lemmas: the two interleaved cap checks bound the result -/

theorem scanLines_length (re : RE) (fp : String) (mx : Nat) :
    ∀ (ls : List String) (i : Nat) (acc : List GrepMatch),
      acc.length ≤ mx → (scanLines re fp mx ls i acc).length ≤ mx := by
  intro ls
  induction ls with
  | nil => intro i acc h; simpa [scanLines] using h
  | cons l ls ih =>
    intro i acc h
    simp only [scanLines]
    split
    · exact h
    · rename_i hlt
      cases hf : reFind re l.data with
      | some p =>
        cases p with
        | mk s e =>
          apply ih
          simp only [List.length_append, List.length_cons, List.length_nil]
          omega
      | none => exact ih (i + 1) acc h

theorem scanEvents_length (re : RE) (mx : Nat) :
    ∀ (evs : List WEvent) (acc : List GrepMatch),
      acc.length ≤ mx → (scanEvents re mx evs acc).length ≤ mx := by
  intro evs
  induction evs with
  | nil => intro acc h; simpa [scanEvents] using h
  | cons ev evs ih =>
    intro acc h
    simp only [scanEvents]
    split
    · exact h
    · cases ev with
      | err => exact ih acc h
      | ok nm rel n =>
        cases n with
        | dir rd es => exact ih acc h
        | file rd ct =>
          by_cases hmd : isMdName nm = true
          · simp only [hmd, if_true]
            cases rd with
            | true =>
              simp only [if_true]
              exact ih _ (scanLines_length re (joinPath rel) mx (rustLines ct) 0 acc h)
            | false => simpa using ih acc h
          · simp only [Bool.not_eq_true] at hmd
            simp only [hmd, Bool.false_eq_true, if_false]
            exact ih acc h

/-! ## Provenance: where emitted matches come from -/

theorem scanLines_mem (re : RE) (fp : String) (mx : Nat) :
    ∀ (ls : List String) (i : Nat) (acc : List GrepMatch) (m : GrepMatch),
      m ∈ scanLines re fp mx ls i acc →
      m ∈ acc ∨ (m.filepath = fp ∧
        reFind re m.line_content.data = some (m.match_start, m.match_end) ∧
        i + 1 ≤ m.line_number) := by
  intro ls
  induction ls with
  | nil =>
    intro i acc m h
    simp only [scanLines] at h
    exact Or.inl h
  | cons l ls ih =>
    intro i acc m h
    simp only [scanLines] at h
    split at h
    · exact Or.inl h
    · cases hf : reFind re l.data with
      | some p =>
        cases p with
        | mk s e =>
          rw [hf] at h
          rcases ih (i + 1) _ m h with hacc | hnew
          · rcases List.mem_append.mp hacc with hacc2 | hone
            · exact Or.inl hacc2
            · have hm : m = ⟨fp, i + 1, l, s, e⟩ := by simpa using hone
              subst hm
              exact Or.inr ⟨rfl, by simpa using hf, le_refl _⟩
          · exact Or.inr ⟨hnew.1, hnew.2.1, by omega⟩
      | none =>
        rw [hf] at h
        rcases ih (i + 1) acc m h with hacc | hnew
        · exact Or.inl hacc
        · exact Or.inr ⟨hnew.1, hnew.2.1, by omega⟩

theorem scanEvents_mem (re : RE) (mx : Nat) :
    ∀ (evs : List WEvent) (acc : List GrepMatch) (m : GrepMatch),
      m ∈ scanEvents re mx evs acc →
      m ∈ acc ∨ ∃ nm rel rd ct, WEvent.ok nm rel (Node.file rd ct) ∈ evs ∧
        m.filepath = joinPath rel ∧
        reFind re m.line_content.data = some (m.match_start, m.match_end) ∧
        1 ≤ m.line_number := by
  intro evs
  induction evs with
  | nil =>
    intro acc m h
    simp only [scanEvents] at h
    exact Or.inl h
  | cons ev evs ih =>
    intro acc m h
    have hstep : ∀ acc2, m ∈ scanEvents re mx evs acc2 →
        (m ∈ acc2 ∨ ∃ nm rel rd ct, WEvent.ok nm rel (Node.file rd ct) ∈ ev :: evs ∧
          m.filepath = joinPath rel ∧
          reFind re m.line_content.data = some (m.match_start, m.match_end) ∧
          1 ≤ m.line_number) := by
      intro acc2 h2
      rcases ih acc2 m h2 with hacc | ⟨nm, rel, rd2, ct2, hev, hrest⟩
      · exact Or.inl hacc
      · exact Or.inr ⟨nm, rel, rd2, ct2, List.mem_cons_of_mem _ hev, hrest⟩
    cases ev with
    | err =>
      simp only [scanEvents] at h
      split at h
      · exact Or.inl h
      · exact hstep acc h
    | ok nm0 rel0 n0 =>
      cases n0 with
      | dir rd es =>
        simp only [scanEvents] at h
        split at h
        · exact Or.inl h
        · exact hstep acc h
      | file rd ct =>
        simp only [scanEvents] at h
        split at h
        · exact Or.inl h
        · by_cases hmd : isMdName nm0 = true
          · rw [hmd] at h
            simp only [if_true] at h
            cases rd with
            | true =>
              simp only [if_true] at h
              rcases hstep _ h with hacc | hfile
              · rcases scanLines_mem re (joinPath rel0) mx (rustLines ct) 0 acc m hacc
                  with hacc2 | ⟨hfp, hfind, hln⟩
                · exact Or.inl hacc2
                · exact Or.inr ⟨nm0, rel0, true, ct, List.mem_cons_self _ _,
                    hfp, hfind, hln⟩
              · exact Or.inr hfile
            | false =>
              simp only [Bool.false_eq_true, if_false] at h
              exact hstep acc h
          · simp only [Bool.not_eq_true] at hmd
            rw [hmd] at h
            simp only [Bool.false_eq_true, if_false] at h
            exact hstep acc h

/-! ## Walk invariants -/

theorem walkNode_nil (filt : String → Bool) (nm : String) (n : Node) (rel : List String)
    (h : filt nm = false) : walkNode filt nm n rel = [] := by
  unfold walkNode
  simp [h]

theorem walkNode_file (filt : String → Bool) (nm : String) (rd : Bool) (ct : String)
    (rel : List String) (h : filt nm = true) :
    walkNode filt nm (Node.file rd ct) rel = [WEvent.ok nm rel (Node.file rd ct)] := by
  unfold walkNode
  simp [h]

theorem walkNode_dirT (filt : String → Bool) (nm : String) (es : Entries)
    (rel : List String) (h : filt nm = true) :
    walkNode filt nm (Node.dir true es) rel =
      WEvent.ok nm rel (Node.dir true es) :: walkEntries filt es rel := by
  unfold walkNode
  simp [h]

theorem walkNode_dirF (filt : String → Bool) (nm : String) (es : Entries)
    (rel : List String) (h : filt nm = true) :
    walkNode filt nm (Node.dir false es) rel =
      [WEvent.ok nm rel (Node.dir false es), WEvent.err] := by
  unfold walkNode
  simp [h]

mutual

theorem walkNode_inv : ∀ (filt : String → Bool) (nm : String) (n : Node) (rel : List String),
    (∀ c ∈ rel, filt c = true) →
    ∀ nm2 rel2 n2, WEvent.ok nm2 rel2 n2 ∈ walkNode filt nm n rel →
    (∀ c ∈ rel2, filt c = true) ∧
      ((rel2 = rel ∧ nm2 = nm ∧ n2 = n) ∨ ∃ r, rel2 = r ++ [nm2])
  | filt, nm, Node.file rd ct, rel, hrel, nm2, rel2, n2, hmem => by
    by_cases hf : filt nm = true
    · rw [walkNode_file filt nm rd ct rel hf] at hmem
      have : WEvent.ok nm2 rel2 n2 = WEvent.ok nm rel (Node.file rd ct) := by
        simpa using hmem
      cases this
      exact ⟨hrel, Or.inl ⟨rfl, rfl, rfl⟩⟩
    · rw [walkNode_nil filt nm _ rel (by simpa using hf)] at hmem
      simp at hmem
  | filt, nm, Node.dir true es, rel, hrel, nm2, rel2, n2, hmem => by
    by_cases hf : filt nm = true
    · rw [walkNode_dirT filt nm es rel hf] at hmem
      rcases List.mem_cons.mp hmem with hhead | htail
      · cases hhead
        exact ⟨hrel, Or.inl ⟨rfl, rfl, rfl⟩⟩
      · have := walkEntries_inv filt es rel hrel nm2 rel2 n2 htail
        exact ⟨this.1, Or.inr this.2⟩
    · rw [walkNode_nil filt nm _ rel (by simpa using hf)] at hmem
      simp at hmem
  | filt, nm, Node.dir false es, rel, hrel, nm2, rel2, n2, hmem => by
    by_cases hf : filt nm = true
    · rw [walkNode_dirF filt nm es rel hf] at hmem
      have : WEvent.ok nm2 rel2 n2 = WEvent.ok nm rel (Node.dir false es) := by
        rcases List.mem_cons.mp hmem with hhead | htail
        · exact hhead
        · simp at htail
      cases this
      exact ⟨hrel, Or.inl ⟨rfl, rfl, rfl⟩⟩
    · rw [walkNode_nil filt nm _ rel (by simpa using hf)] at hmem
      simp at hmem

theorem walkEntries_inv : ∀ (filt : String → Bool) (es : Entries) (rel : List String),
    (∀ c ∈ rel, filt c = true) →
    ∀ nm2 rel2 n2, WEvent.ok nm2 rel2 n2 ∈ walkEntries filt es rel →
    (∀ c ∈ rel2, filt c = true) ∧ ∃ r, rel2 = r ++ [nm2]
  | filt, Entries.nil, rel, hrel, nm2, rel2, n2, hmem => by
    simp [walkEntries] at hmem
  | filt, Entries.cons nm c rest, rel, hrel, nm2, rel2, n2, hmem => by
    simp only [walkEntries] at hmem
    rcases List.mem_append.mp hmem with hleft | hright
    · by_cases hf : filt nm = true
      · have hrel2 : ∀ x ∈ rel ++ [nm], filt x = true := by
          intro x hx
          rcases List.mem_append.mp hx with hx1 | hx2
          · exact hrel x hx1
          · simpa using List.mem_singleton.mp hx2 ▸ hf
        have := walkNode_inv filt nm c (rel ++ [nm]) hrel2 nm2 rel2 n2 hleft
        rcases this.2 with ⟨he, hn, hn2⟩ | ⟨r, hr⟩
        · exact ⟨this.1, ⟨rel, by rw [he, hn]⟩⟩
        · exact ⟨this.1, ⟨r, hr⟩⟩
      · rw [walkNode_nil filt nm c (rel ++ [nm]) (by simpa using hf)] at hleft
        simp at hleft
    · exact walkEntries_inv filt rest rel hrel nm2 rel2 n2 hright

end

/-- Every match an ok `grep_search` run returns carries a filter-clean
root-relative path, first-match offsets for its own line, and a 1-based
line number. -/
theorem grepSearch_provenance (rootName : String) (n : Node) (pattern : String)
    (maxResults : Option Nat) (ms : List GrepMatch)
    (h : grepSearch rootName (some n) pattern maxResults = Except.ok ms) :
    ∃ re, compilePattern pattern = some re ∧ ∀ m ∈ ms, MatchProv grepFilt re m := by
  simp only [grepSearch] at h
  cases hc : compilePattern pattern with
  | none => rw [hc] at h; cases h
  | some re =>
    rw [hc] at h
    refine ⟨re, rfl, ?_⟩
    intro m hm
    cases h
    rcases scanEvents_mem re (maxResults.getD 100) (walkNode grepFilt rootName n []) [] m hm
      with hacc | ⟨nm, rel, rd, ct, hev, hfp, hfind, hln⟩
    · simp at hacc
    · have hinv := walkNode_inv grepFilt rootName n [] (by simp) nm rel
        (Node.file rd ct) hev
      exact ⟨⟨rel, hfp, hinv.1⟩, hfind, hln⟩

/-! ## Acceptance algebra for the literal-pattern characterisation -/

theorem foldl_deriv_alt : ∀ (cs : List Char) (a b : RE),
    cs.foldl deriv (RE.alt a b) = RE.alt (cs.foldl deriv a) (cs.foldl deriv b) := by
  intro cs
  induction cs with
  | nil => intro a b; rfl
  | cons c cs ih => intro a b; simpa [deriv] using ih (deriv a c) (deriv b c)

theorem foldl_deriv_empcat : ∀ (cs : List Char) (r : RE),
    cs.foldl deriv (RE.cat RE.emp r) = RE.cat RE.emp r := by
  intro cs
  induction cs with
  | nil => intro r; rfl
  | cons c cs ih => intro r; simpa [deriv, nullable] using ih r

theorem accept_empcat (r : RE) (cs : List Char) :
    acceptRE (RE.cat RE.emp r) cs = false := by
  simp [acceptRE, foldl_deriv_empcat, nullable]

theorem accept_epscat : ∀ (cs : List Char) (r : RE),
    acceptRE (RE.cat RE.eps r) cs = acceptRE r cs := by
  intro cs
  cases cs with
  | nil => intro r; simp [acceptRE, nullable]
  | cons c cs =>
    intro r
    show acceptRE (RE.cat RE.eps r) (c :: cs) = acceptRE r (c :: cs)
    have h1 : acceptRE (RE.cat RE.eps r) (c :: cs) =
        nullable (cs.foldl deriv (RE.alt (RE.cat RE.emp r) (deriv r c))) := by
      simp [acceptRE, deriv, nullable]
    rw [h1, foldl_deriv_alt]
    have h2 : nullable (cs.foldl deriv (RE.cat RE.emp r)) = false := accept_empcat r cs
    simp [nullable, h2]
    rfl

theorem accept_lit : ∀ (l : List Char) (cs : List Char),
    acceptRE (litRE l) cs = true ↔ cs = l := by
  intro l
  induction l with
  | nil =>
    intro cs
    cases cs with
    | nil => simp [litRE, acceptRE, nullable]
    | cons c cs =>
      simp only [litRE]
      have : acceptRE RE.eps (c :: cs) = nullable (cs.foldl deriv RE.emp) := by
        simp [acceptRE, deriv]
      rw [this]
      have hemp : ∀ (xs : List Char), xs.foldl deriv RE.emp = RE.emp := by
        intro xs
        induction xs with
        | nil => rfl
        | cons x xs ihx => simpa [deriv] using ihx
      simp [hemp, nullable]
  | cons a l ih =>
    intro cs
    cases cs with
    | nil => simp [litRE, acceptRE, nullable]
    | cons c cs =>
      simp only [litRE]
      have hstep : acceptRE (RE.cat (RE.chr a) (litRE l)) (c :: cs) =
          acceptRE (RE.cat (if c = a then RE.eps else RE.emp) (litRE l)) cs := by
        simp [acceptRE, deriv, nullable]
      rw [hstep]
      by_cases hc : c = a
      · subst hc
        have hif : (if c = c then RE.eps else RE.emp) = RE.eps := if_pos rfl
        rw [hif, accept_epscat, ih cs]
        constructor
        · intro h; rw [h]
        · intro h; injection h
      · rw [if_neg hc]
        simp only [accept_empcat]
        constructor
        · intro h; cases h
        · intro h
          injection h with h1 h2
          exact absurd h1 hc

/-! ## Bridge between `lastNullable` and acceptance -/

theorem lastNullable_accept : ∀ (cs : List Char) (r : RE) (i e : Nat),
    lastNullable r cs i = some e → acceptRE r (cs.take (e - i)) = true := by
  intro cs
  induction cs with
  | nil =>
    intro r i e h
    by_cases hn : nullable r = true
    · simp only [lastNullable, hn, if_true] at h
      cases h
      simpa [acceptRE] using hn
    · simp only [lastNullable, hn, Bool.false_eq_true, if_false] at h
      cases h
  | cons c cs ih =>
    intro r i e h
    simp only [lastNullable] at h
    cases hrec : lastNullable (deriv r c) cs (i + 1) with
    | some e2 =>
      rw [hrec] at h
      have hb := lastNullable_bounds cs (deriv r c) (i + 1) e2 hrec
      have hacc := ih (deriv r c) (i + 1) e2 hrec
      cases h
      have hei : e - i = (e - (i + 1)) + 1 := by omega
      rw [hei]
      simpa [acceptRE] using hacc
    | none =>
      rw [hrec] at h
      by_cases hn : nullable r = true
      · simp only [hn, if_true] at h
        cases h
        simpa [acceptRE] using hn
      · simp only [hn, Bool.false_eq_true, if_false] at h
        cases h

theorem lastNullable_none_accept : ∀ (cs : List Char) (r : RE) (i : Nat),
    lastNullable r cs i = none → ∀ k, k ≤ cs.length → acceptRE r (cs.take k) = false := by
  intro cs
  induction cs with
  | nil =>
    intro r i h k hk
    have hk0 : k = 0 := Nat.le_zero.mp (by simpa using hk)
    subst hk0
    by_cases hn : nullable r = true
    · simp [lastNullable, hn] at h
    · simpa [acceptRE] using hn
  | cons c cs ih =>
    intro r i h k hk
    simp only [lastNullable] at h
    cases hrec : lastNullable (deriv r c) cs (i + 1) with
    | some e2 => rw [hrec] at h; cases h
    | none =>
      rw [hrec] at h
      have hn : nullable r = false := by
        by_cases hn : nullable r = true
        · simp [hn] at h
        · simpa using hn
      cases k with
      | zero => simpa [acceptRE] using hn
      | succ k =>
        have hk2 : k ≤ cs.length := by simpa using hk
        have := ih (deriv r c) (i + 1) hrec k hk2
        simpa [acceptRE] using this

theorem lastNullable_some_of_accept (cs : List Char) (r : RE) (i k : Nat)
    (hk : k ≤ cs.length) (hacc : acceptRE r (cs.take k) = true) :
    (lastNullable r cs i).isSome = true := by
  cases hl : lastNullable r cs i with
  | some e => rfl
  | none =>
    have := lastNullable_none_accept cs r i hl k hk
    rw [hacc] at this
    cases this

theorem reFindAux_none : ∀ (cs : List Char) (r : RE) (i : Nat),
    reFindAux r cs i = none →
    ∀ j, i ≤ j → j ≤ i + cs.length → lastNullable r (cs.drop (j - i)) j = none := by
  intro cs
  induction cs with
  | nil =>
    intro r i h j hij hji
    have hj : j = i := by simpa using Nat.le_antisymm hji hij
    subst hj
    simp only [reFindAux] at h
    cases hn : lastNullable r [] j with
    | some e => rw [hn] at h; cases h
    | none => simpa using hn
  | cons c cs ih =>
    intro r i h j hij hji
    simp only [reFindAux] at h
    cases hn : lastNullable r (c :: cs) i with
    | some e => rw [hn] at h; cases h
    | none =>
      rw [hn] at h
      rcases Nat.eq_or_lt_of_le hij with heq | hlt
      · subst heq
        simpa using hn
      · have hji2 : j - i = (j - (i + 1)) + 1 := by omega
        rw [hji2]
        have hji3 : j ≤ (i + 1) + cs.length := by
          simp only [List.length_cons] at hji
          omega
        have := ih r (i + 1) h j hlt hji3
        simpa using this

/-! ## Unfolding steps for `reFindAux` -/

theorem reFindAux_some (r : RE) (cs : List Char) (i e : Nat)
    (hn : lastNullable r cs i = some e) : reFindAux r cs i = some (i, e) := by
  cases cs with
  | nil => simp only [reFindAux, hn]
  | cons c cs2 => simp only [reFindAux, hn]

theorem reFindAux_nil_none (r : RE) (i : Nat) (hn : lastNullable r [] i = none) :
    reFindAux r [] i = none := by
  simp only [reFindAux, hn]

theorem reFindAux_cons_none (r : RE) (c : Char) (cs : List Char) (i : Nat)
    (hn : lastNullable r (c :: cs) i = none) :
    reFindAux r (c :: cs) i = reFindAux r cs (i + 1) := by
  simp only [reFindAux, hn]

/-! ## The literal pattern performs plain-substring search -/

theorem litRE_find_substr (pat cs : List Char) (s e : Nat)
    (h : reFind (litRE pat) cs = some (s, e)) :
    substrAt pat cs s ∧ e = s + pat.length ∧ ∀ j, j < s → ¬ substrAt pat cs j := by
  have hb := reFindAux_bounds cs (litRE pat) 0 s e h
  have hlast : lastNullable (litRE pat) (cs.drop s) s = some e := by
    rcases Nat.eq_zero_or_pos s with hs | hs
    · subst hs
      simp only [List.drop_zero]
      cases hn : lastNullable (litRE pat) cs 0 with
      | some e2 =>
        replace h : reFindAux (litRE pat) cs 0 = some (0, e) := h
        rw [reFindAux_some (litRE pat) cs 0 e2 hn] at h
        have he : e2 = e := by simpa using h
        rw [he]
      | none =>
        exfalso
        replace h : reFindAux (litRE pat) cs 0 = some (0, e) := h
        cases cs with
        | nil =>
          rw [reFindAux_nil_none (litRE pat) 0 hn] at h
          cases h
        | cons c cs2 =>
          rw [reFindAux_cons_none (litRE pat) c cs2 0 hn] at h
          have := reFindAux_bounds cs2 (litRE pat) (0 + 1) 0 e h
          omega
    · -- peel the leading positions off the search
      have : ∀ (cs2 : List Char) (i s2 : Nat), reFindAux (litRE pat) cs2 i = some (s2, e) →
          lastNullable (litRE pat) (cs2.drop (s2 - i)) s2 = some e := by
        intro cs2
        induction cs2 with
        | nil =>
          intro i s2 hfind
          simp only [reFindAux] at hfind
          cases hn : lastNullable (litRE pat) [] i with
          | some e2 => rw [hn] at hfind; cases hfind; simpa using hn
          | none => rw [hn] at hfind; cases hfind
        | cons c cs3 ihc =>
          intro i s2 hfind
          simp only [reFindAux] at hfind
          cases hn : lastNullable (litRE pat) (c :: cs3) i with
          | some e2 => rw [hn] at hfind; cases hfind; simpa using hn
          | none =>
            rw [hn] at hfind
            have hb2 := reFindAux_bounds cs3 (litRE pat) (i + 1) s2 e hfind
            have := ihc (i + 1) s2 hfind
            have hs2 : s2 - i = (s2 - (i + 1)) + 1 := by omega
            rw [hs2]
            simpa using this
      simpa using this cs 0 s h
  have hacc := lastNullable_accept (cs.drop s) (litRE pat) s e hlast
  have hdl : (cs.drop s).length = cs.length - s := by simp
  have htake : (cs.drop s).take (e - s) = pat := (accept_lit pat _).mp hacc
  have hlen : pat.length = e - s := by
    have := congrArg List.length htake
    simp only [List.length_take, hdl] at this
    omega
  refine ⟨⟨(cs.drop s).drop (e - s), ?_⟩, by omega, ?_⟩
  · rw [← htake]
    simp
  · intro j hj hsub
    rcases hsub with ⟨t, ht⟩
    have hnone := reFindAux_leftmost cs (litRE pat) 0 s e h j (Nat.zero_le j) hj
    simp only [Nat.sub_zero] at hnone
    have hjlen : j ≤ cs.length := by
      by_contra hjl
      push_neg at hjl
      have : cs.drop j = [] := List.drop_eq_nil_of_le (le_of_lt hjl)
      rw [this] at ht
      have hpat : pat = [] := by
        cases pat with
        | nil => rfl
        | cons p ps => simp at ht
      subst hpat
      simp only [List.length_nil] at hlen
      omega
    have hklen : pat.length ≤ (cs.drop j).length := by
      rw [ht]
      simp
    have haccj : acceptRE (litRE pat) ((cs.drop j).take pat.length) = true := by
      rw [ht]
      rw [List.take_left' rfl]
      exact (accept_lit pat pat).mpr rfl
    have := lastNullable_some_of_accept (cs.drop j) (litRE pat) j pat.length hklen haccj
    rw [hnone] at this
    cases this

theorem litRE_find_of_substr (pat cs : List Char) (j : Nat)
    (hj : j ≤ cs.length) (hsub : substrAt pat cs j) :
    (reFind (litRE pat) cs).isSome = true := by
  cases hf : reFind (litRE pat) cs with
  | some p => rfl
  | none =>
    exfalso
    rcases hsub with ⟨t, ht⟩
    have hnone := reFindAux_none cs (litRE pat) 0 hf j (Nat.zero_le j) (by simpa using hj)
    simp only [Nat.sub_zero] at hnone
    have hklen : pat.length ≤ (cs.drop j).length := by rw [ht]; simp
    have haccj : acceptRE (litRE pat) ((cs.drop j).take pat.length) = true := by
      rw [ht, List.take_left' rfl]
      exact (accept_lit pat pat).mpr rfl
    have := lastNullable_some_of_accept (cs.drop j) (litRE pat) j pat.length hklen haccj
    rw [hnone] at this
    cases this

/-! ## The escaped form of any pattern parses as its literal regex -/

theorem atomBlock_meta (c : Char) (h : isAtomBlock c = true) : isMetaCh c = true := by
  have h2 : c = ')' ∨ c = '|' ∨ c = '*' ∨ c = '+' ∨ c = '?' := by
    simpa [isAtomBlock, or_assoc] using h
  rcases h2 with h | h | h | h | h <;> subst h <;> decide

theorem meta_not_atomBlock (c : Char) (h : isMetaCh c = false) : isAtomBlock c = false := by
  by_cases hb : isAtomBlock c = true
  · rw [atomBlock_meta c hb] at h
    cases h
  · simpa using hb

theorem escList_cons (c : Char) (t : List Char) :
    escList (c :: t) = escChar c ++ escList t := by
  by_cases hm : isMetaCh c = true <;> simp [escList, escChar, hm]

theorem escList_noLeadRepOp : ∀ l : List Char, noLeadRepOp (escList l) := by
  intro l
  cases l with
  | nil => trivial
  | cons d t =>
    by_cases hm : isMetaCh d = true
    · simp only [escList, hm, if_true, noLeadRepOp]
      refine ⟨by decide, by decide, by decide⟩
    · have hm2 : isMetaCh d = false := by simpa using hm
      simp only [escList, hm2, Bool.false_eq_true, if_false, noLeadRepOp]
      refine ⟨?_, ?_, ?_⟩ <;> intro hx <;> rw [hx] at hm2 <;> exact absurd hm2 (by decide)

theorem atomStart_escChar (c : Char) (E : List Char) :
    atomStart (escChar c ++ E) = true := by
  by_cases hm : isMetaCh c = true
  · simp [escChar, hm, atomStart]
  · have hm2 : isMetaCh c = false := by simpa using hm
    simp only [escChar, hm2, Bool.false_eq_true, if_false, List.singleton_append]
    rw [atomStart.eq_def]
    split
    · rename_i heq
      cases heq
    · rename_i rest heq
      injection heq with h1 h2
      rw [h1] at hm2
      exact absurd hm2 (by decide)
    · rename_i c2 rest hne heq
      injection heq with h1 h2
      subst h1
      rw [meta_not_atomBlock c hm2]
      rfl

theorem pAtom_lit (f : Nat) (c : Char) (E : List Char) (hm : isMetaCh c = false) :
    pAtom (f + 1) (c :: E) = some (RE.chr c, E) := by
  rw [pAtom.eq_def]
  split
  · rename_i heq
    exact absurd heq (by omega)
  · rename_i f2 heq
    split
    · rename_i heq2
      cases heq2
    · rename_i rest heq2
      injection heq2 with h1 h2
      rw [h1] at hm
      exact absurd hm (by decide)
    · rename_i c2 rest heq2
      injection heq2 with h1 h2
      rw [h1] at hm
      exact absurd hm (by decide)
    · rename_i rest heq2
      injection heq2 with h1 h2
      rw [h1] at hm
      exact absurd hm (by decide)
    · rename_i c2 rest hne1 hne2 hne3 heq2
      injection heq2 with h1 h2
      subst h1
      subst h2
      rw [meta_not_atomBlock c hm]
      simp

theorem pAtom_escChar (f : Nat) (c : Char) (E : List Char) :
    pAtom (f + 1) (escChar c ++ E) = some (RE.chr c, E) := by
  by_cases hm : isMetaCh c = true
  · have he : escChar c ++ E = '\\' :: c :: E := by simp [escChar, hm]
    rw [he]
    rfl
  · have hm2 : isMetaCh c = false := by simpa using hm
    have he : escChar c ++ E = c :: E := by simp [escChar, hm2]
    rw [he]
    exact pAtom_lit f c E hm2

theorem pRep_escChar (f : Nat) (c : Char) (E : List Char) (hE : noLeadRepOp E) :
    pRep (f + 2) (escChar c ++ E) = some (RE.chr c, E) := by
  show (match pAtom (f + 1) (escChar c ++ E) with
    | none => none
    | some (r, rest) =>
      match rest with
      | '*' :: rest2 => some (RE.star r, rest2)
      | '+' :: rest2 => some (RE.cat r (RE.star r), rest2)
      | '?' :: rest2 => some (RE.alt r RE.eps, rest2)
      | _ => some (r, rest)) = some (RE.chr c, E)
  rw [pAtom_escChar f c E]
  cases E with
  | nil => rfl
  | cons d t =>
    rcases hE with ⟨h1, h2, h3⟩
    show (match d :: t with
      | '*' :: rest2 => some (RE.star (RE.chr c), rest2)
      | '+' :: rest2 => some (RE.cat (RE.chr c) (RE.star (RE.chr c)), rest2)
      | '?' :: rest2 => some (RE.alt (RE.chr c) RE.eps, rest2)
      | _ => some (RE.chr c, d :: t)) = some (RE.chr c, d :: t)
    split
    · rename_i heq
      injection heq with hd ht
      exact absurd hd h1
    · rename_i heq
      injection heq with hd ht
      exact absurd hd h2
    · rename_i heq
      injection heq with hd ht
      exact absurd hd h3
    · rfl

theorem pCat_escList : ∀ (l : List Char) (f : Nat), 2 * l.length + 2 ≤ f →
    pCat f (escList l) = some (litRE l, []) := by
  intro l
  induction l with
  | nil =>
    intro f hf
    cases f with
    | zero => omega
    | succ f2 =>
      show (if atomStart (escList []) = true then
              match pRep f2 (escList []) with
              | none => none
              | some (r, rest) =>
                match pCat f2 rest with
                | some (r2, rest2) => some (RE.cat r r2, rest2)
                | none => none
            else some (RE.eps, escList [])) = some (litRE [], [])
      simp [escList, atomStart, litRE]
  | cons c t ih =>
    intro f hf
    cases f with
    | zero => omega
    | succ f2 =>
      obtain ⟨g, hg⟩ : ∃ g, f2 = g + 2 := ⟨f2 - 2, by simp at hf; omega⟩
      subst hg
      show (if atomStart (escList (c :: t)) = true then
              match pRep (g + 2) (escList (c :: t)) with
              | none => none
              | some (r, rest) =>
                match pCat (g + 2) rest with
                | some (r2, rest2) => some (RE.cat r r2, rest2)
                | none => none
            else some (RE.eps, escList (c :: t))) = some (litRE (c :: t), [])
      rw [escList_cons, atomStart_escChar c (escList t)]
      rw [if_pos rfl]
      rw [pRep_escChar g c (escList t) (escList_noLeadRepOp t)]
      have hlen : 2 * t.length + 2 ≤ g + 2 := by simp at hf; omega
      show (match pCat (g + 2) (escList t) with
        | some (r2, rest2) => some (RE.cat (RE.chr c) r2, rest2)
        | none => none) = some (litRE (c :: t), [])
      rw [ih (g + 2) hlen]
      rfl

theorem pAlt_escList (l : List Char) (f : Nat) (hf : 2 * l.length + 3 ≤ f) :
    pAlt f (escList l) = some (litRE l, []) := by
  cases f with
  | zero => omega
  | succ f2 =>
    show (match pCat f2 (escList l) with
      | none => none
      | some (r, rest) =>
        match rest with
        | '|' :: rest2 =>
          match pAlt f2 rest2 with
          | some (r2, rest3) => some (RE.alt r r2, rest3)
          | none => none
        | _ => some (r, rest)) = some (litRE l, [])
    rw [pCat_escList l f2 (by omega)]

theorem escList_length_ge : ∀ l : List Char, l.length ≤ (escList l).length := by
  intro l
  induction l with
  | nil => simp [escList]
  | cons c t ih =>
    by_cases hm : isMetaCh c = true
    · simp only [escList, hm, if_true, List.length_cons]
      omega
    · have hm2 : isMetaCh c = false := by simpa using hm
      simp only [escList, hm2, Bool.false_eq_true, if_false, List.length_cons]
      omega

/-- The fallback stage never fails: the escaped pattern always compiles,
to the literal regex of the original text. -/
theorem parseRegex_escape (p : String) :
    parseRegex (escapeRegex p) = some (litRE p.data) := by
  show (match pAlt (2 * (escapeRegex p).data.length + 4) (escapeRegex p).data with
    | some (r, []) => some r
    | _ => none) = some (litRE p.data)
  have hdata : (escapeRegex p).data = escList p.data := rfl
  rw [hdata]
  rw [pAlt_escList p.data _ (by have := escList_length_ge p.data; omega)]

/-- The two-stage compile succeeds on every pattern string. -/
theorem compilePattern_total (p : String) : ∃ re, compilePattern p = some re := by
  show ∃ re, (match parseRegex p with
    | some r => some r
    | none => parseRegex (escapeRegex p)) = some re
  cases hp : parseRegex p with
  | some r => exact ⟨r, rfl⟩
  | none => exact ⟨litRE p.data, parseRegex_escape p⟩

/-- `grep_search` succeeds on every existing root, whatever the
pattern: pattern compilation cannot fail. -/
theorem grepSearch_total (rootName p : String) (n : Node) (mr : Option Nat) :
    ∃ ms, grepSearch rootName (some n) p mr = Except.ok ms := by
  rcases compilePattern_total p with ⟨re, hre⟩
  refine ⟨scanEvents re (mr.getD 100) (walkNode grepFilt rootName n []) [], ?_⟩
  simp [grepSearch, hre]

/-! ## Order lemmas for the sort comparators -/

theorem lexOrd_swap : ∀ (x y : List Char),
    lexOrd x y = Ordering.gt ↔ lexOrd y x = Ordering.lt := by
  intro x
  induction x with
  | nil =>
    intro y
    cases y <;> simp [lexOrd]
  | cons a as ih =>
    intro y
    cases y with
    | nil => simp [lexOrd]
    | cons b bs =>
      simp only [lexOrd]
      by_cases h1 : a.toNat < b.toNat
      · have h2 : ¬ b.toNat < a.toNat := by omega
        simp [h1, h2]
      · by_cases h2 : b.toNat < a.toNat
        · simp [h1, h2]
        · simp [h1, h2, ih bs]

theorem lexOrd_le_trans : ∀ (x y z : List Char),
    lexOrd x y ≠ Ordering.gt → lexOrd y z ≠ Ordering.gt → lexOrd x z ≠ Ordering.gt := by
  intro x
  induction x with
  | nil =>
    intro y z h1 h2
    cases z <;> simp [lexOrd]
  | cons a as ih =>
    intro y z h1 h2
    cases y with
    | nil => simp [lexOrd] at h1
    | cons b bs =>
      cases z with
      | nil => simp [lexOrd] at h2
      | cons c cs =>
        simp only [lexOrd] at h1 h2 ⊢
        by_cases hab : a.toNat < b.toNat
        · by_cases hbc : b.toNat < c.toNat
          · have hac : a.toNat < c.toNat := by omega
            simp [hac]
          · by_cases hcb : c.toNat < b.toNat
            · simp [hbc, hcb] at h2
            · have hac : a.toNat < c.toNat := by omega
              simp [hac]
        · by_cases hba : b.toNat < a.toNat
          · simp [hab, hba] at h1
          · by_cases hbc : b.toNat < c.toNat
            · have hac : a.toNat < c.toNat := by omega
              simp [hac]
            · by_cases hcb : c.toNat < b.toNat
              · simp [hbc, hcb] at h2
              · have hac : ¬ a.toNat < c.toNat := by omega
                have hca : ¬ c.toNat < a.toNat := by omega
                simp only [hac, hca, if_false]
                exact ih bs cs (by simpa [hab, hba] using h1) (by simpa [hbc, hcb] using h2)

theorem feR_iff (a b : FileEntry) : feR a b ↔ feCmp a b ≠ Ordering.gt := by
  unfold feR feLe
  cases h : feCmp a b <;> simp [h] <;> decide

instance : IsTotal FileEntry feR := by
  constructor
  intro a b
  rw [feR_iff, feR_iff]
  unfold feCmp
  cases ha : FileEntry.is_directory a <;> cases hb : FileEntry.is_directory b <;> simp
  · by_cases hg : lexOrd (lowerData (FileEntry.name a)) (lowerData (FileEntry.name b)) = Ordering.gt
    · right
      rw [(lexOrd_swap _ _).mp hg]
      simp
    · left
      exact hg
  · by_cases hg : lexOrd (lowerData (FileEntry.name a)) (lowerData (FileEntry.name b)) = Ordering.gt
    · right
      rw [(lexOrd_swap _ _).mp hg]
      simp
    · left
      exact hg

instance : IsTrans FileEntry feR := by
  constructor
  intro a b c hab hbc
  rw [feR_iff] at hab hbc ⊢
  unfold feCmp at hab hbc ⊢
  cases ha : FileEntry.is_directory a <;> cases hb : FileEntry.is_directory b <;>
    cases hc : FileEntry.is_directory c <;>
    simp only [ha, hb, hc] at hab hbc ⊢ <;>
    first
      | (exact absurd rfl hab)
      | (exact absurd rfl hbc)
      | (exact lexOrd_le_trans _ _ _ hab hbc)
      | decide

theorem feR_claimOrd (a b : FileEntry) (h : feR a b) : claimOrd a b := by
  rw [feR_iff] at h
  unfold claimOrd
  unfold feCmp at h
  cases ha : FileEntry.is_directory a <;> cases hb : FileEntry.is_directory b <;>
    simp only [ha, hb] at h ⊢
  · exact ⟨fun hx => hx, fun _ => h⟩
  · exact absurd rfl h
  · exact ⟨fun _ => trivial, fun hx => absurd hx (by decide)⟩
  · exact ⟨fun _ => trivial, fun _ => h⟩

theorem pathR_iff (a b : FileEntry) :
    pathR a b ↔ lexOrd (lowerData (FileEntry.path a)) (lowerData (FileEntry.path b)) ≠ Ordering.gt := by
  unfold pathR pathLe
  cases h : lexOrd (lowerData (FileEntry.path a)) (lowerData (FileEntry.path b)) <;>
    simp [h] <;> decide

instance : IsTotal FileEntry pathR := by
  constructor
  intro a b
  rw [pathR_iff, pathR_iff]
  by_cases hg : lexOrd (lowerData (FileEntry.path a)) (lowerData (FileEntry.path b)) = Ordering.gt
  · right
    rw [(lexOrd_swap _ _).mp hg]
    simp
  · left
    exact hg

instance : IsTrans FileEntry pathR := by
  constructor
  intro a b c hab hbc
  rw [pathR_iff] at hab hbc ⊢
  exact lexOrd_le_trans _ _ _ hab hbc

/-! ## Unfolding equations for `buildList` -/

theorem buildList_nil (rel : List String) : buildList Entries.nil rel = Except.ok [] := rfl

theorem buildList_skip_hidden (nm : String) (c : Node) (rest : Entries) (rel : List String)
    (hm : (headIsDot nm && !(nm == ".graphnotes")) = true) :
    buildList (Entries.cons nm c rest) rel = buildList rest rel := by
  simp only [buildList, hm, if_true]

theorem buildList_skip_nonmd (nm : String) (c : Node) (rest : Entries) (rel : List String)
    (hm : (headIsDot nm && !(nm == ".graphnotes")) = false)
    (h2 : (!c.isDir && !isMdName nm) = true) :
    buildList (Entries.cons nm c rest) rel = buildList rest rel := by
  simp only [buildList, hm, h2, Bool.false_eq_true, if_false, if_true]

theorem buildList_dir (nm : String) (c : Node) (rest : Entries) (rel : List String)
    (hm : (headIsDot nm && !(nm == ".graphnotes")) = false)
    (hdir : c.isDir = true) :
    buildList (Entries.cons nm c rest) rel =
      match buildTree c (rel ++ [nm]) with
      | Except.error e => Except.error e
      | Except.ok lc =>
        match buildList rest rel with
        | Except.error e => Except.error e
        | Except.ok others =>
          Except.ok (FileEntry.mk nm (joinPath (rel ++ [nm])) true (some lc) :: others) := by
  have h2 : (!c.isDir && !isMdName nm) = false := by
    rw [hdir]
    rfl
  simp only [buildList, hm, h2, hdir, Bool.false_eq_true, if_false, if_true]
  cases hbt : buildTree c (rel ++ [nm]) with
  | error e => simp [Except.map]
  | ok lc =>
    simp only [Except.map]
    cases hbl : buildList rest rel with
    | error e => rfl
    | ok others => rfl

theorem buildList_file (nm : String) (c : Node) (rest : Entries) (rel : List String)
    (hm : (headIsDot nm && !(nm == ".graphnotes")) = false)
    (hdir : c.isDir = false) (hmd : isMdName nm = true) :
    buildList (Entries.cons nm c rest) rel =
      match buildList rest rel with
      | Except.error e => Except.error e
      | Except.ok others =>
        Except.ok (FileEntry.mk nm (joinPath (rel ++ [nm])) false none :: others) := by
  have h2 : (!c.isDir && !isMdName nm) = false := by
    rw [hdir, hmd]
    rfl
  simp only [buildList, hm, h2, hdir, hmd, Bool.false_eq_true, if_false, if_true]
  cases hbl : buildList rest rel with
  | error e => rfl
  | ok others => rfl

/-! ## Every successfully built tree is sorted at every level -/

mutual

theorem buildTree_sorted : ∀ (n : Node) (rel : List String) (l : List FileEntry),
    buildTree n rel = Except.ok l → SortedForest l
  | Node.file rd ct, rel, l, h => by cases h
  | Node.dir false es, rel, l, h => by cases h
  | Node.dir true es, rel, l, h => by
    simp only [buildTree] at h
    cases hb : buildList es rel with
    | error e => rw [hb] at h; cases h
    | ok l0 =>
      rw [hb] at h
      simp only [Except.map] at h
      cases h
      refine SortedForest.mk _ ?_ ?_
      · exact List.Pairwise.imp (fun hxy => feR_claimOrd _ _ hxy)
          (List.sorted_insertionSort feR l0)
      · intro fe hfe cs hcs
        have hfe0 : fe ∈ l0 := (List.perm_insertionSort feR l0).mem_iff.mp hfe
        exact buildList_children_sorted es rel l0 hb fe hfe0 cs hcs

theorem buildList_children_sorted : ∀ (es : Entries) (rel : List String) (l : List FileEntry),
    buildList es rel = Except.ok l →
    ∀ fe ∈ l, ∀ cs, FileEntry.children fe = some cs → SortedForest cs
  | Entries.nil, rel, l, h => by
    cases h
    intro fe hfe
    simp at hfe
  | Entries.cons nm c rest, rel, l, h => by
    by_cases h1 : (headIsDot nm && !(nm == ".graphnotes")) = true
    · rw [buildList_skip_hidden nm c rest rel h1] at h
      exact buildList_children_sorted rest rel l h
    · have h1f : (headIsDot nm && !(nm == ".graphnotes")) = false := by simpa using h1
      cases hdir : c.isDir with
      | true =>
        rw [buildList_dir nm c rest rel h1f hdir] at h
        cases hbt : buildTree c (rel ++ [nm]) with
        | error e => rw [hbt] at h; cases h
        | ok lc =>
          rw [hbt] at h
          cases hbl : buildList rest rel with
          | error e => rw [hbl] at h; cases h
          | ok others =>
            rw [hbl] at h
            cases h
            intro fe hfe cs hcs
            rcases List.mem_cons.mp hfe with hhead | htail
            · subst hhead
              simp only [FileEntry.children] at hcs
              cases hcs
              exact buildTree_sorted c (rel ++ [nm]) lc hbt
            · exact buildList_children_sorted rest rel others hbl fe htail cs hcs
      | false =>
        by_cases hmd : isMdName nm = true
        · rw [buildList_file nm c rest rel h1f hdir hmd] at h
          cases hbl : buildList rest rel with
          | error e => rw [hbl] at h; cases h
          | ok others =>
            rw [hbl] at h
            cases h
            intro fe hfe cs hcs
            rcases List.mem_cons.mp hfe with hhead | htail
            · subst hhead
              simp only [FileEntry.children] at hcs
              cases hcs
            · exact buildList_children_sorted rest rel others hbl fe htail cs hcs
        · have hmdf : isMdName nm = false := by simpa using hmd
          have h2 : (!c.isDir && !isMdName nm) = true := by rw [hdir, hmdf]; rfl
          rw [buildList_skip_nonmd nm c rest rel h1f h2] at h
          exact buildList_children_sorted rest rel l h

end

/-! ## Admitted names in built trees -/

theorem name_ok_of_filter (nm : String)
    (h : (headIsDot nm && !(nm == ".graphnotes")) = false) :
    headIsDot nm = false ∨ nm = ".graphnotes" := by
  cases hd : headIsDot nm
  · exact Or.inl rfl
  · right
    rw [hd] at h
    simp only [Bool.true_and, Bool.not_eq_false'] at h
    exact eq_of_beq h

mutual

theorem buildTree_oknames : ∀ (n : Node) (rel : List String) (l : List FileEntry),
    buildTree n rel = Except.ok l → OkNamesForest l
  | Node.file rd ct, rel, l, h => by cases h
  | Node.dir false es, rel, l, h => by cases h
  | Node.dir true es, rel, l, h => by
    simp only [buildTree] at h
    cases hb : buildList es rel with
    | error e => rw [hb] at h; cases h
    | ok l0 =>
      rw [hb] at h
      simp only [Except.map] at h
      cases h
      refine OkNamesForest.mk _ ?_ ?_
      · intro fe hfe
        have hfe0 : fe ∈ l0 := (List.perm_insertionSort feR l0).mem_iff.mp hfe
        exact (buildList_oknames es rel l0 hb).1 fe hfe0
      · intro fe hfe cs hcs
        have hfe0 : fe ∈ l0 := (List.perm_insertionSort feR l0).mem_iff.mp hfe
        exact (buildList_oknames es rel l0 hb).2 fe hfe0 cs hcs

theorem buildList_oknames : ∀ (es : Entries) (rel : List String) (l : List FileEntry),
    buildList es rel = Except.ok l →
    (∀ fe ∈ l, headIsDot (FileEntry.name fe) = false ∨ FileEntry.name fe = ".graphnotes") ∧
    (∀ fe ∈ l, ∀ cs, FileEntry.children fe = some cs → OkNamesForest cs)
  | Entries.nil, rel, l, h => by
    cases h
    constructor <;> intro fe hfe <;> simp at hfe
  | Entries.cons nm c rest, rel, l, h => by
    by_cases h1 : (headIsDot nm && !(nm == ".graphnotes")) = true
    · rw [buildList_skip_hidden nm c rest rel h1] at h
      exact buildList_oknames rest rel l h
    · have h1f : (headIsDot nm && !(nm == ".graphnotes")) = false := by simpa using h1
      cases hdir : c.isDir with
      | true =>
        rw [buildList_dir nm c rest rel h1f hdir] at h
        cases hbt : buildTree c (rel ++ [nm]) with
        | error e => rw [hbt] at h; cases h
        | ok lc =>
          rw [hbt] at h
          cases hbl : buildList rest rel with
          | error e => rw [hbl] at h; cases h
          | ok others =>
            rw [hbl] at h
            cases h
            constructor
            · intro fe hfe
              rcases List.mem_cons.mp hfe with hhead | htail
              · subst hhead
                exact name_ok_of_filter nm h1f
              · exact (buildList_oknames rest rel others hbl).1 fe htail
            · intro fe hfe cs hcs
              rcases List.mem_cons.mp hfe with hhead | htail
              · subst hhead
                simp only [FileEntry.children] at hcs
                cases hcs
                exact buildTree_oknames c (rel ++ [nm]) lc hbt
              · exact (buildList_oknames rest rel others hbl).2 fe htail cs hcs
      | false =>
        by_cases hmd : isMdName nm = true
        · rw [buildList_file nm c rest rel h1f hdir hmd] at h
          cases hbl : buildList rest rel with
          | error e => rw [hbl] at h; cases h
          | ok others =>
            rw [hbl] at h
            cases h
            constructor
            · intro fe hfe
              rcases List.mem_cons.mp hfe with hhead | htail
              · subst hhead
                exact name_ok_of_filter nm h1f
              · exact (buildList_oknames rest rel others hbl).1 fe htail
            · intro fe hfe cs hcs
              rcases List.mem_cons.mp hfe with hhead | htail
              · subst hhead
                simp only [FileEntry.children] at hcs
                cases hcs
              · exact (buildList_oknames rest rel others hbl).2 fe htail cs hcs
        · have hmdf : isMdName nm = false := by simpa using hmd
          have h2 : (!c.isDir && !isMdName nm) = true := by rw [hdir, hmdf]; rfl
          rw [buildList_skip_nonmd nm c rest rel h1f h2] at h
          exact buildList_oknames rest rel l h

end

/-! ## Paths in built trees are joined root-relative components -/

mutual

theorem buildTree_paths : ∀ (n : Node) (rel : List String) (l : List FileEntry),
    buildTree n rel = Except.ok l → PathsFrom rel l
  | Node.file rd ct, rel, l, h => by cases h
  | Node.dir false es, rel, l, h => by cases h
  | Node.dir true es, rel, l, h => by
    simp only [buildTree] at h
    cases hb : buildList es rel with
    | error e => rw [hb] at h; cases h
    | ok l0 =>
      rw [hb] at h
      simp only [Except.map] at h
      cases h
      refine PathsFrom.mk _ _ ?_ ?_
      · intro fe hfe
        have hfe0 : fe ∈ l0 := (List.perm_insertionSort feR l0).mem_iff.mp hfe
        exact (buildList_paths es rel l0 hb).1 fe hfe0
      · intro fe hfe cs hcs
        have hfe0 : fe ∈ l0 := (List.perm_insertionSort feR l0).mem_iff.mp hfe
        exact (buildList_paths es rel l0 hb).2 fe hfe0 cs hcs

theorem buildList_paths : ∀ (es : Entries) (rel : List String) (l : List FileEntry),
    buildList es rel = Except.ok l →
    (∀ fe ∈ l, FileEntry.path fe = joinPath (rel ++ [FileEntry.name fe])) ∧
    (∀ fe ∈ l, ∀ cs, FileEntry.children fe = some cs →
      PathsFrom (rel ++ [FileEntry.name fe]) cs)
  | Entries.nil, rel, l, h => by
    cases h
    constructor <;> intro fe hfe <;> simp at hfe
  | Entries.cons nm c rest, rel, l, h => by
    by_cases h1 : (headIsDot nm && !(nm == ".graphnotes")) = true
    · rw [buildList_skip_hidden nm c rest rel h1] at h
      exact buildList_paths rest rel l h
    · have h1f : (headIsDot nm && !(nm == ".graphnotes")) = false := by simpa using h1
      cases hdir : c.isDir with
      | true =>
        rw [buildList_dir nm c rest rel h1f hdir] at h
        cases hbt : buildTree c (rel ++ [nm]) with
        | error e => rw [hbt] at h; cases h
        | ok lc =>
          rw [hbt] at h
          cases hbl : buildList rest rel with
          | error e => rw [hbl] at h; cases h
          | ok others =>
            rw [hbl] at h
            cases h
            constructor
            · intro fe hfe
              rcases List.mem_cons.mp hfe with hhead | htail
              · subst hhead
                rfl
              · exact (buildList_paths rest rel others hbl).1 fe htail
            · intro fe hfe cs hcs
              rcases List.mem_cons.mp hfe with hhead | htail
              · subst hhead
                simp only [FileEntry.children] at hcs
                cases hcs
                exact buildTree_paths c (rel ++ [nm]) lc hbt
              · exact (buildList_paths rest rel others hbl).2 fe htail cs hcs
      | false =>
        by_cases hmd : isMdName nm = true
        · rw [buildList_file nm c rest rel h1f hdir hmd] at h
          cases hbl : buildList rest rel with
          | error e => rw [hbl] at h; cases h
          | ok others =>
            rw [hbl] at h
            cases h
            constructor
            · intro fe hfe
              rcases List.mem_cons.mp hfe with hhead | htail
              · subst hhead
                rfl
              · exact (buildList_paths rest rel others hbl).1 fe htail
            · intro fe hfe cs hcs
              rcases List.mem_cons.mp hfe with hhead | htail
              · subst hhead
                simp only [FileEntry.children] at hcs
                cases hcs
              · exact (buildList_paths rest rel others hbl).2 fe htail cs hcs
        · have hmdf : isMdName nm = false := by simpa using hmd
          have h2 : (!c.isDir && !isMdName nm) = true := by rw [hdir, hmdf]; rfl
          rw [buildList_skip_nonmd nm c rest rel h1f h2] at h
          exact buildList_paths rest rel l h

end

/-! ## A reachable unreadable directory makes the whole build fail -/

mutual

theorem buildTree_err_of_reach : ∀ (n : Node), reachUnreadable n = true →
    ∀ rel : List String, ∃ e, buildTree n rel = Except.error e
  | Node.file rd ct, hr, rel => by cases hr
  | Node.dir false es, hr, rel => ⟨"Failed to read directory", rfl⟩
  | Node.dir true es, hr, rel => by
    have hes : entriesReachUnreadable es = true := by
      simpa [reachUnreadable] using hr
    rcases buildList_err_of_reach es hes rel with ⟨e, he⟩
    refine ⟨e, ?_⟩
    simp only [buildTree, he, Except.map]

theorem buildList_err_of_reach : ∀ (es : Entries), entriesReachUnreadable es = true →
    ∀ rel : List String, ∃ e, buildList es rel = Except.error e
  | Entries.nil, hr, rel => by cases hr
  | Entries.cons nm c rest, hr, rel => by
    simp only [entriesReachUnreadable, Bool.or_eq_true] at hr
    by_cases h1 : (headIsDot nm && !(nm == ".graphnotes")) = true
    · have hrest : entriesReachUnreadable rest = true := by
        rcases hr with hc | hrest
        · rw [if_pos h1] at hc
          cases hc
        · exact hrest
      rcases buildList_err_of_reach rest hrest rel with ⟨e, he⟩
      exact ⟨e, by rw [buildList_skip_hidden nm c rest rel h1]; exact he⟩
    · have h1f : (headIsDot nm && !(nm == ".graphnotes")) = false := by simpa using h1
      rcases hr with hc | hrest
      · rw [if_neg h1] at hc
        have hdir : c.isDir = true := by
          cases c with
          | file rd ct => cases hc
          | dir rd es2 => rfl
        rcases buildTree_err_of_reach c hc (rel ++ [nm]) with ⟨e, he⟩
        refine ⟨e, ?_⟩
        rw [buildList_dir nm c rest rel h1f hdir, he]
      · rcases buildList_err_of_reach rest hrest rel with ⟨e, he⟩
        cases hdir : c.isDir with
        | true =>
          cases hbt : buildTree c (rel ++ [nm]) with
          | error e2 =>
            exact ⟨e2, by rw [buildList_dir nm c rest rel h1f hdir, hbt]⟩
          | ok lc =>
            refine ⟨e, ?_⟩
            rw [buildList_dir nm c rest rel h1f hdir, hbt, he]
        | false =>
          by_cases hmd : isMdName nm = true
          · refine ⟨e, ?_⟩
            rw [buildList_file nm c rest rel h1f hdir hmd, he]
          · have hmdf : isMdName nm = false := by simpa using hmd
            have h2 : (!c.isDir && !isMdName nm) = true := by rw [hdir, hmdf]; rfl
            exact ⟨e, by rw [buildList_skip_nonmd nm c rest rel h1f h2]; exact he⟩

end

/-! ## Provenance of listing results -/

theorem collectMd_mem : ∀ (evs : List WEvent) (l : List FileEntry),
    collectMd evs = Except.ok l →
    ∀ fe ∈ l, ∃ nm rel rd ct, WEvent.ok nm rel (Node.file rd ct) ∈ evs ∧
      fe = FileEntry.mk nm (joinPath rel) false none ∧ isMdName nm = true := by
  intro evs
  induction evs with
  | nil =>
    intro l h fe hfe
    cases h
    simp at hfe
  | cons ev evs ih =>
    intro l h fe hfe
    cases ev with
    | err =>
      simp only [collectMd] at h
      cases h
    | ok nm0 rel0 n0 =>
      cases n0 with
      | dir rd es =>
        simp only [collectMd] at h
        rcases ih l h fe hfe with ⟨nm, rel, rd2, ct, hev, hrest⟩
        exact ⟨nm, rel, rd2, ct, List.mem_cons_of_mem _ hev, hrest⟩
      | file rd ct =>
        simp only [collectMd] at h
        by_cases hmd : isMdName nm0 = true
        · rw [hmd] at h
          simp only [if_true] at h
          cases hc : collectMd evs with
          | error e =>
            rw [hc] at h
            simp only [Except.map] at h
            cases h
          | ok l0 =>
            rw [hc] at h
            simp only [Except.map] at h
            cases h
            rcases List.mem_cons.mp hfe with hhead | htail
            · exact ⟨nm0, rel0, rd, ct, List.mem_cons_self _ _, hhead, hmd⟩
            · rcases ih l0 hc fe htail with ⟨nm, rel, rd2, ct2, hev, hrest⟩
              exact ⟨nm, rel, rd2, ct2, List.mem_cons_of_mem _ hev, hrest⟩
        · have hmdf : isMdName nm0 = false := by simpa using hmd
          rw [hmdf] at h
          simp only [Bool.false_eq_true, if_false] at h
          rcases ih l h fe hfe with ⟨nm, rel, rd2, ct2, hev, hrest⟩
          exact ⟨nm, rel, rd2, ct2, List.mem_cons_of_mem _ hev, hrest⟩

theorem listMarkdownFiles_mem (rootName : String) (n : Node) (l : List FileEntry)
    (h : listMarkdownFiles rootName (some n) = Except.ok l) :
    ∀ fe ∈ l, ∃ nm rel rd ct,
      WEvent.ok nm rel (Node.file rd ct) ∈ walkNode gnFilt rootName n [] ∧
      fe = FileEntry.mk nm (joinPath rel) false none ∧ isMdName nm = true := by
  simp only [listMarkdownFiles] at h
  cases hc : collectMd (walkNode gnFilt rootName n []) with
  | error e =>
    rw [hc] at h
    simp only [Except.map] at h
    cases h
  | ok l0 =>
    rw [hc] at h
    simp only [Except.map] at h
    cases h
    intro fe hfe
    have hfe0 : fe ∈ l0 := (List.perm_insertionSort pathR l0).mem_iff.mp hfe
    exact collectMd_mem _ l0 hc fe hfe0

theorem listDirectory_mem (rootPath : String) (es : Entries) (l : List FileEntry)
    (h : listDirectory rootPath (some (Node.dir true es)) = Except.ok l) :
    ∀ fe ∈ l, ∃ nm c, (nm, c) ∈ entriesToList es ∧
      fe = FileEntry.mk nm (rootPath ++ "/" ++ nm) (Node.isDir c) none ∧
      (headIsDot nm = false ∨ nm = ".graphnotes") := by
  simp only [listDirectory] at h
  cases h
  intro fe hfe
  have hfe0 := (List.perm_insertionSort feR _).mem_iff.mp hfe
  rcases List.mem_filterMap.mp hfe0 with ⟨⟨nm, c⟩, hmem, hf⟩
  by_cases h1 : (headIsDot nm && !(nm == ".graphnotes")) = true
  · rw [if_pos h1] at hf
    cases hf
  · rw [if_neg h1] at hf
    injection hf with hf2
    exact ⟨nm, c, hmem, hf2.symm,
      name_ok_of_filter nm (by simpa using h1)⟩

/-- `list_markdown_files` on a root path that is a file never fails:
the walk of a file root produces no error events. -/
theorem listMarkdownFiles_file_ok (rootName : String) (rd : Bool) (ct : String) :
    ∃ l, listMarkdownFiles rootName (some (Node.file rd ct)) = Except.ok l := by
  simp only [listMarkdownFiles]
  by_cases hf : gnFilt rootName = true
  · rw [walkNode_file gnFilt rootName rd ct [] hf]
    simp only [collectMd]
    by_cases hmd : isMdName rootName = true
    · rw [hmd]
      simp only [if_true]
      exact ⟨_, rfl⟩
    · have hmdf : isMdName rootName = false := by simpa using hmd
      rw [hmdf]
      simp only [Bool.false_eq_true, if_false]
      exact ⟨[], rfl⟩
  · rw [walkNode_nil gnFilt rootName _ [] (by simpa using hf)]
    exact ⟨[], rfl⟩

/-! ## Claim theorems -/

/-- C1: for every root path, pattern string, and maxResults value
(defaulting to 100 when absent), the sequence returned by search has
length at most maxResults; the cap checks between files and between
lines keep the accumulator bounded at every step, so scanning stops as
soon as the count reaches the cap. -/
theorem c1_search_respects_max_results (rootName : String) (root : Option Node)
    (pattern : String) (maxResults : Option Nat) (ms : List GrepMatch)
    (h : grepSearch rootName root pattern maxResults = Except.ok ms) :
    ms.length ≤ maxResults.getD 100 := by
  cases root with
  | none => cases h
  | some n =>
    simp only [grepSearch] at h
    cases hc : compilePattern pattern with
    | none => rw [hc] at h; cases h
    | some re =>
      rw [hc] at h
      cases h
      exact scanEvents_length re _ _ [] (by simp)

theorem c1_search_respects_max_results_witness :
    ([⟨"a.md", 1, "hello world", 0, 5⟩, ⟨"sub/b.md", 1, "say hello", 4, 9⟩] :
      List GrepMatch).length ≤ (some 10 : Option Nat).getD 100 :=
  c1_search_respects_max_results "vault" (some fs9node) "hello" (some 10) _ rfl

/-- C2 (counterexample): the subtree of `fs2hidden` contains an
unreadable directory, hidden behind the dot-led name `.h`, yet
`get_file_tree` succeeds with a tree instead of failing with an
IOError — the claim's universal quantification over "root whose
subtree contains an unreadable directory" is refuted. -/
theorem c2_counterexample :
    containsUnreadableDir fs2hidden = true ∧
    getFileTree "v" (some fs2hidden) = Except.ok [] :=
  ⟨rfl, rfl⟩

/-- C2 (amended): whenever an unreadable directory is reachable through
admitted names (i.e. not inside a skipped dot-led directory),
`get_file_tree` fails with an error and returns no tree at all —
unreadable directories inside hidden subtrees are never read and so
cannot fail the build. -/
theorem c2_build_fails_on_reachable_unreadable (rootPath : String) (n : Node)
    (h : reachUnreadable n = true) :
    ∃ e, getFileTree rootPath (some n) = Except.error e := by
  rcases buildTree_err_of_reach n h [] with ⟨e, he⟩
  exact ⟨e, he⟩

theorem c2_build_fails_on_reachable_unreadable_witness :
    ∃ e, getFileTree "v" (some fs2visible) = Except.error e :=
  c2_build_fails_on_reachable_unreadable "v" fs2visible rfl

/-- C3: `a(b` fails the first regex compilation; the two-stage compile
falls back to the metacharacter-escaped literal form (the literal
regex of the pattern text); searching a vault whose note contains the
literal text `a(b` yields the match; compilation succeeds for every
pattern string, so search on an existing root never returns an
InvalidPattern error; and the literal regex finds exactly the leftmost
plain-substring occurrence, when one exists. -/
theorem c3_literal_fallback :
    parseRegex "a(b" = none ∧
    compilePattern "a(b" = some (litRE "a(b".data) ∧
    grepSearch "v" (some fs3node) "a(b" (some 10) =
      Except.ok [⟨"n.md", 1, "xa(b", 1, 4⟩] ∧
    (∀ p : String, ∃ re, compilePattern p = some re) ∧
    (∀ (rootName p : String) (n : Node) (mr : Option Nat),
      ∃ ms, grepSearch rootName (some n) p mr = Except.ok ms) ∧
    (∀ (pat cs : List Char) (s e : Nat), reFind (litRE pat) cs = some (s, e) →
      substrAt pat cs s ∧ e = s + pat.length ∧ ∀ j, j < s → ¬ substrAt pat cs j) ∧
    (∀ (pat cs : List Char) (j : Nat), j ≤ cs.length → substrAt pat cs j →
      (reFind (litRE pat) cs).isSome = true) :=
  ⟨rfl, rfl, rfl, compilePattern_total,
    fun rootName p n mr => grepSearch_total rootName p n mr,
    litRE_find_substr, litRE_find_of_substr⟩

theorem c3_literal_fallback_witness :
    substrAt "a(b".data "xa(b".data 1 ∧ 4 = 1 + "a(b".data.length ∧
      ∀ j, j < 1 → ¬ substrAt "a(b".data "xa(b".data j :=
  c3_literal_fallback.2.2.2.2.2.1 "a(b".data "xa(b".data 1 4 rfl

/-- C4 (counterexample): the empty pattern is a valid regex matching
the empty string, and `grep_search` then emits a match whose
match_start equals its match_end — the strict inequality
match_start < match_end claimed does not hold for every pattern. -/
theorem c4_counterexample :
    grepSearch "v" (some fs4node) "" (some 10) =
      Except.ok [⟨"e.md", 1, "x", 0, 0⟩] ∧
    ∃ m : GrepMatch, m ∈ [(⟨"e.md", 1, "x", 0, 0⟩ : GrepMatch)] ∧
      ¬ m.match_start < m.match_end :=
  ⟨rfl, ⟨"e.md", 1, "x", 0, 0⟩, List.mem_singleton.mpr rfl, by decide⟩

/-- C4 (amended): every GrepMatch returned by search satisfies
0 ≤ match_start ≤ match_end ≤ length line_content; the strict
inequality fails only for patterns matching the empty string. -/
theorem c4_match_offsets_bounds (rootName : String) (n : Node) (pattern : String)
    (maxResults : Option Nat) (ms : List GrepMatch)
    (h : grepSearch rootName (some n) pattern maxResults = Except.ok ms) :
    ∀ m ∈ ms, m.match_start ≤ m.match_end ∧ m.match_end ≤ m.line_content.length := by
  rcases grepSearch_provenance rootName n pattern maxResults ms h with ⟨re, hre, hall⟩
  intro m hm
  have hp := hall m hm
  have hb := reFind_bounds re m.line_content.data m.match_start m.match_end hp.2.1
  have hlen : m.line_content.length = m.line_content.data.length := rfl
  exact ⟨hb.1, by rw [hlen]; exact hb.2⟩

theorem c4_match_offsets_bounds_witness :
    (⟨"a.md", 1, "hello world", 0, 5⟩ : GrepMatch).match_start ≤
      (⟨"a.md", 1, "hello world", 0, 5⟩ : GrepMatch).match_end ∧
    (⟨"a.md", 1, "hello world", 0, 5⟩ : GrepMatch).match_end ≤
      (⟨"a.md", 1, "hello world", 0, 5⟩ : GrepMatch).line_content.length :=
  c4_match_offsets_bounds "vault" fs9node "hello" (some 10) _ rfl
    ⟨"a.md", 1, "hello world", 0, 5⟩ (List.mem_cons_self _ _)

/-- C5 (counterexample): on a root path that exists but is a (markdown)
file, `grep_search` succeeds — it even searches the file — and
`list_markdown_files` succeeds too, so it is not the case that all
four operations fail with a NotADirectory error. -/
theorem c5_counterexample :
    grepSearch "a.md" (some f5node) "hello" none =
      Except.ok [⟨"", 1, "hello", 0, 5⟩] ∧
    listMarkdownFiles "a.md" (some f5node) =
      Except.ok [FileEntry.mk "a.md" "" false none] :=
  ⟨rfl, rfl⟩

/-- C5 (amended): on an existing non-directory target, only
`list_directory` fails with the dedicated NotADirectory error;
`get_file_tree` fails too, but with the generic read-directory
IOError; `grep_search` and `list_markdown_files` do not fail at all —
they treat the file as the walk root and return a (possibly empty)
result list. -/
theorem c5_not_a_directory (rootPath rootName : String) (rd : Bool) (ct : String)
    (pattern : String) (mr : Option Nat) :
    listDirectory rootPath (some (Node.file rd ct)) =
      Except.error ("Path is not a directory: " ++ rootPath) ∧
    getFileTree rootPath (some (Node.file rd ct)) =
      Except.error "Failed to read directory" ∧
    (∃ ms, grepSearch rootName (some (Node.file rd ct)) pattern mr = Except.ok ms) ∧
    (∃ l, listMarkdownFiles rootName (some (Node.file rd ct)) = Except.ok l) :=
  ⟨rfl, rfl, grepSearch_total rootName pattern _ mr,
    listMarkdownFiles_file_ok rootName rd ct⟩

/-- C6 (counterexample): `list_directory` does not return root-relative
paths: on root `/v` the single entry `a.md` is reported with the full
path `/v/a.md`, which contains the root prefix. -/
theorem c6_counterexample :
    listDirectory "/v" (some fs6node) =
      Except.ok [FileEntry.mk "a.md" ("/v" ++ "/" ++ "a.md") false none] ∧
    ("/v" ++ "/" ++ "a.md") ≠ "a.md" :=
  ⟨rfl, by decide⟩

/-- C6 (amended): `get_file_tree` and `list_markdown_files` return
root-relative paths joined with the forward slash — in the tree every
entry's path is the join of its components below the root, and in the
flat markdown listing every path joins components ending in the
entry's own name — while `list_directory` returns the root path joined
with the entry name, i.e. a full path carrying the root prefix. -/
theorem c6_path_shapes :
    (∀ (rootPath : String) (root : Option Node) (l : List FileEntry),
      getFileTree rootPath root = Except.ok l → PathsFrom [] l) ∧
    (∀ (rootName : String) (rd : Bool) (es : Entries) (l : List FileEntry),
      listMarkdownFiles rootName (some (Node.dir rd es)) = Except.ok l →
      ∀ fe ∈ l, ∃ r, FileEntry.path fe = joinPath (r ++ [FileEntry.name fe])) ∧
    (∀ (rootPath : String) (root : Option Node) (l : List FileEntry),
      listDirectory rootPath root = Except.ok l →
      ∀ fe ∈ l, FileEntry.path fe = rootPath ++ "/" ++ FileEntry.name fe) := by
  refine ⟨?_, ?_, ?_⟩
  · intro rootPath root l h
    cases root with
    | none => cases h
    | some n => exact buildTree_paths n [] l h
  · intro rootName rd es l h fe hfe
    rcases listMarkdownFiles_mem rootName (Node.dir rd es) l h fe hfe
      with ⟨nm, rel, rd2, ct, hev, hfe2, hmd⟩
    have hinv := walkNode_inv gnFilt rootName (Node.dir rd es) [] (by simp) nm rel
      (Node.file rd2 ct) hev
    rcases hinv.2 with ⟨hrel, hnm, hn2⟩ | ⟨r, hr⟩
    · cases hn2
    · subst hfe2
      subst hr
      exact ⟨r, rfl⟩
  · intro rootPath root l h fe hfe
    cases root with
    | none => cases h
    | some n =>
      cases n with
      | file rd ct => cases h
      | dir rd es =>
        cases rd with
        | false => cases h
        | true =>
          rcases listDirectory_mem rootPath es l h fe hfe with ⟨nm, c, hmem, hfe2, hok⟩
          subst hfe2
          rfl

theorem c6_path_shapes_witness :
    FileEntry.path (FileEntry.mk "a.md" ("/v" ++ "/" ++ "a.md") false none) =
      "/v" ++ "/" ++ FileEntry.name (FileEntry.mk "a.md" ("/v" ++ "/" ++ "a.md") false none) :=
  c6_path_shapes.2.2 "/v" (some fs6node) _ rfl _ (List.mem_cons_self _ _)

/-- C7: in every tree built by `get_file_tree`, at each level all
directory entries precede all file entries and names within a kind are
case-insensitively non-decreasing, recursively; `list_directory`
output satisfies the same pairwise order at its single level. -/
theorem c7_sort_invariant :
    (∀ (rootPath : String) (root : Option Node) (l : List FileEntry),
      getFileTree rootPath root = Except.ok l → SortedForest l) ∧
    (∀ (rootPath : String) (root : Option Node) (l : List FileEntry),
      listDirectory rootPath root = Except.ok l → List.Pairwise claimOrd l) := by
  constructor
  · intro rootPath root l h
    cases root with
    | none => cases h
    | some n => exact buildTree_sorted n [] l h
  · intro rootPath root l h
    cases root with
    | none => cases h
    | some n =>
      cases n with
      | file rd ct => cases h
      | dir rd es =>
        cases rd with
        | false => cases h
        | true =>
          simp only [listDirectory] at h
          cases h
          exact List.Pairwise.imp (fun hxy => feR_claimOrd _ _ hxy)
            (List.sorted_insertionSort feR _)

theorem c7_sort_invariant_witness :
    ∃ l, getFileTree "v" (some fsSortNode) = Except.ok l ∧ SortedForest l :=
  ⟨_, rfl, c7_sort_invariant.1 "v" (some fsSortNode) _ rfl⟩

/-- C8: dot-led names are excluded from every traversal: search
results lie on paths all of whose components are dot-free;
`list_markdown_files` admits a dot-led component only when it is the
reserved `.graphnotes`; every name in a built tree and in a directory
listing is dot-free or `.graphnotes`; concretely, `.git/notes.md` is
found by neither search nor the markdown listing, while a
`.graphnotes` subtree is admitted by the tree operation. -/
theorem c8_hidden_filter :
    (∀ (rootName pattern : String) (n : Node) (mr : Option Nat) (ms : List GrepMatch),
      grepSearch rootName (some n) pattern mr = Except.ok ms →
      ∀ m ∈ ms, ∃ rel, m.filepath = joinPath rel ∧ ∀ c ∈ rel, headIsDot c = false) ∧
    (∀ (rootName : String) (n : Node) (l : List FileEntry),
      listMarkdownFiles rootName (some n) = Except.ok l →
      ∀ fe ∈ l, ∃ rel, FileEntry.path fe = joinPath rel ∧
        ∀ c ∈ rel, headIsDot c = false ∨ c = ".graphnotes") ∧
    (∀ (rootPath : String) (root : Option Node) (l : List FileEntry),
      getFileTree rootPath root = Except.ok l → OkNamesForest l) ∧
    (∀ (rootPath : String) (root : Option Node) (l : List FileEntry),
      listDirectory rootPath root = Except.ok l →
      ∀ fe ∈ l, headIsDot (FileEntry.name fe) = false ∨
        FileEntry.name fe = ".graphnotes") ∧
    grepSearch "v" (some fs8git) "alpha" none =
      Except.ok [⟨"a.md", 1, "alpha", 0, 5⟩] ∧
    listMarkdownFiles "v" (some fs8git) =
      Except.ok [FileEntry.mk "a.md" "a.md" false none] ∧
    getFileTree "v" (some fs8gn) = Except.ok
      [FileEntry.mk ".graphnotes" ".graphnotes" true
        (some [FileEntry.mk "x.md" ".graphnotes/x.md" false none]),
       FileEntry.mk "b.md" "b.md" false none] := by
  refine ⟨?_, ?_, ?_, ?_, rfl, rfl, rfl⟩
  · intro rootName pattern n mr ms h m hm
    rcases grepSearch_provenance rootName n pattern mr ms h with ⟨re, hre, hall⟩
    rcases (hall m hm).1 with ⟨rel, hfp, hcomp⟩
    refine ⟨rel, hfp, fun c hc => ?_⟩
    have := hcomp c hc
    simpa [grepFilt] using this
  · intro rootName n l h fe hfe
    rcases listMarkdownFiles_mem rootName n l h fe hfe
      with ⟨nm, rel, rd, ct, hev, hfe2, hmd⟩
    have hinv := walkNode_inv gnFilt rootName n [] (by simp) nm rel
      (Node.file rd ct) hev
    refine ⟨rel, by subst hfe2; rfl, fun c hc => ?_⟩
    have hg := hinv.1 c hc
    simp only [gnFilt, Bool.or_eq_true, Bool.not_eq_true'] at hg
    rcases hg with hg | hg
    · exact Or.inl hg
    · exact Or.inr (eq_of_beq hg)
  · intro rootPath root l h
    cases root with
    | none => cases h
    | some n => exact buildTree_oknames n [] l h
  · intro rootPath root l h fe hfe
    cases root with
    | none => cases h
    | some n =>
      cases n with
      | file rd ct => cases h
      | dir rd es =>
        cases rd with
        | false => cases h
        | true =>
          rcases listDirectory_mem rootPath es l h fe hfe with ⟨nm, c, hmem, hfe2, hok⟩
          rw [hfe2]
          exact hok

theorem c8_hidden_filter_witness :
    ∃ rel, (⟨"a.md", 1, "alpha", 0, 5⟩ : GrepMatch).filepath = joinPath rel ∧
      ∀ c ∈ rel, headIsDot c = false :=
  c8_hidden_filter.1 "v" "alpha" fs8git none _ rfl _ (List.mem_cons_self _ _)

/-- C9: the two-file scenario returns exactly its two matches with
1-based line numbers and 0-based offsets, in traversal order; in
general each searched line contributes at most its first match: the
reported offsets are a match of the compiled pattern on the line's
text and no earlier start position carries any match. -/
theorem c9_first_match_per_line :
    grepSearch "vault" (some fs9node) "hello" (some 10) = Except.ok
      [⟨"a.md", 1, "hello world", 0, 5⟩, ⟨"sub/b.md", 1, "say hello", 4, 9⟩] ∧
    (∀ (rootName pattern : String) (n : Node) (mr : Option Nat) (ms : List GrepMatch),
      grepSearch rootName (some n) pattern mr = Except.ok ms →
      ∃ re, compilePattern pattern = some re ∧
        ∀ m ∈ ms,
          reFind re m.line_content.data = some (m.match_start, m.match_end) ∧
          (∀ j, j < m.match_start →
            lastNullable re (m.line_content.data.drop j) j = none) ∧
          1 ≤ m.line_number) := by
  refine ⟨rfl, ?_⟩
  intro rootName pattern n mr ms h
  rcases grepSearch_provenance rootName n pattern mr ms h with ⟨re, hre, hall⟩
  refine ⟨re, hre, fun m hm => ?_⟩
  have hp := hall m hm
  exact ⟨hp.2.1, reFind_leftmost re m.line_content.data _ _ hp.2.1, hp.2.2⟩

theorem c9_first_match_per_line_witness :
    ∃ re, compilePattern "hello" = some re ∧
      ∀ m ∈ ([⟨"a.md", 1, "hello world", 0, 5⟩, ⟨"sub/b.md", 1, "say hello", 4, 9⟩] :
        List GrepMatch),
        reFind re m.line_content.data = some (m.match_start, m.match_end) ∧
        (∀ j, j < m.match_start →
          lastNullable re (m.line_content.data.drop j) j = none) ∧
        1 ≤ m.line_number :=
  c9_first_match_per_line.2 "vault" "hello" fs9node (some 10) _ rfl

/-- C10: the hidden-name filter applies to the walk root itself:
`grep_search` on an existing root whose base name is dot-led returns
the empty list whatever the vault contains (no exception for
`.graphnotes`, as the concrete conjunct shows), and
`list_markdown_files` returns the empty list unless the base name is
exactly `.graphnotes`, for which it lists the vault. -/
theorem c10_hidden_root (rootName : String) (n : Node) (pattern : String)
    (mr : Option Nat) (h : headIsDot rootName = true) :
    grepSearch rootName (some n) pattern mr = Except.ok [] ∧
    (rootName ≠ ".graphnotes" → listMarkdownFiles rootName (some n) = Except.ok []) ∧
    grepSearch ".graphnotes" (some fshNode) "hello" none = Except.ok [] ∧
    listMarkdownFiles ".graphnotes" (some fshNode) =
      Except.ok [FileEntry.mk "x.md" "x.md" false none] := by
  refine ⟨?_, ?_, rfl, rfl⟩
  · rcases compilePattern_total pattern with ⟨re, hre⟩
    simp only [grepSearch, hre]
    rw [walkNode_nil grepFilt rootName n [] (by simp [grepFilt, h])]
    rfl
  · intro hne
    have hg : gnFilt rootName = false := by
      simp only [gnFilt, h, Bool.not_true, Bool.false_or]
      exact beq_false_of_ne hne
    simp only [listMarkdownFiles]
    rw [walkNode_nil gnFilt rootName n [] hg]
    rfl

theorem c10_hidden_root_witness :
    grepSearch ".hid" (some fshNode) "hello" none = Except.ok [] ∧
    (".hid" ≠ ".graphnotes" → listMarkdownFiles ".hid" (some fshNode) = Except.ok []) ∧
    grepSearch ".graphnotes" (some fshNode) "hello" none = Except.ok [] ∧
    listMarkdownFiles ".graphnotes" (some fshNode) =
      Except.ok [FileEntry.mk "x.md" "x.md" false none] :=
  c10_hidden_root ".hid" fshNode "hello" none rfl

end GraphNotes
